import Mathlib

/-!
# Verification of the adaptive keyed LSB steganography core

Shallow embedding of the bit-placement / payload-framing engine of the
`adaptive_steganography` repository (`src/embed.py`, `src/extract.py`,
`src/keyed_adaptive.py`, `src/robust_payload.py`, `src/encrypt.py`).

Modelling conventions:
* a 16-bit PCM sample buffer is a `List ℤ` (each element in `[-2^15, 2^15)`,
  though the development does not need the bound);
* byte strings are `List ℕ` with every element `< 256`; bit streams are
  `List ℕ` with every element `≤ 1` (numpy `uint8` arrays of 0/1);
* the external primitives that the core only composes — the cryptographic
  hash (`hashlib.sha256`), the deterministic pseudo-random generator
  (`np.random.default_rng`: per-sample uniform draws and `rng.permutation`),
  the per-frame RMS aggregate, `np.percentile` on a non-empty array,
  `zlib.crc32` and the AES-CBC cipher — are packaged as an explicit
  environment `Env`, exactly as the specification treats them (supplied
  functions, out of scope).  Every repository-owned line is translated
  directly.
* a Python exception escaping a core function is modelled as an explicit
  error value (`Except`), and the "no result" return `None` as `Option`.
-/

namespace Stego

/-- One byte to its 8 bits, most-significant first (`np.unpackbits`). -/
def byteToBits (b : ℕ) : List ℕ :=
  [b / 128 % 2, b / 64 % 2, b / 32 % 2, b / 16 % 2, b / 8 % 2, b / 4 % 2, b / 2 % 2, b % 2]

/-- `np.unpackbits(np.frombuffer(b, dtype=np.uint8))`: bytes to a bit stream. -/
def bytesToBits (bs : List ℕ) : List ℕ := bs.flatMap byteToBits

/-- Pack up to 8 bits (MSB first) into one byte, padding with zero bits on the
right as `np.packbits` does for a trailing partial group. -/
def packChunk (bits : List ℕ) : ℕ :=
  (bits ++ List.replicate (8 - bits.length) 0).foldl (fun a b => 2 * a + b) 0

/-- `np.packbits(bits).tobytes()`: a bit stream to bytes, zero-padding the
final partial byte. -/
def bitsToBytes (bits : List ℕ) : List ℕ :=
  if h : bits = [] then []
  else packChunk (bits.take 8) :: bitsToBytes (bits.drop 8)
termination_by bits.length
decreasing_by
  simp only [List.length_drop]
  have : bits.length ≠ 0 := fun hl => h (List.eq_nil_of_length_eq_zero hl)
  omega

/-- Big-endian bytes of a natural number, `k` bytes (`int.to_bytes(k, 'big')`,
reduced mod `256^k`). -/
def natToBE (k x : ℕ) : List ℕ := (List.range k).map (fun i => x / 256 ^ (k - 1 - i) % 256)

/-- `int.from_bytes(bs, 'big')`. -/
def bytesBEToNat (bs : List ℕ) : ℕ := bs.foldl (fun a b => 256 * a + b) 0

/-- Split a list into consecutive chunks of length `r` (`reshape(-1, r)`;
callers establish `r ∣ length`, `r ≥ 1`). -/
def chunks (r : ℕ) (l : List ℕ) : List (List ℕ) :=
  if h : l = [] ∨ r = 0 then []
  else l.take r :: chunks r (l.drop r)
termination_by l.length
decreasing_by
  simp only [List.length_drop]
  rcases not_or.mp h with ⟨h1, h2⟩
  have : l.length ≠ 0 := fun hl => h1 (List.eq_nil_of_length_eq_zero hl)
  omega

/-- Numpy fancy indexing by an index array: `out[i] = xs[p[i]]`. -/
def applyPerm (p : List ℕ) (xs : List ℕ) : List ℕ := p.map (fun i => xs.getD i 0)

/-- The inverse permutation computed in `decode_payload` by
`inv[perm] = arange(n)`: `invPerm p` lists, for each value `i`, the position
of `i` inside `p`. -/
def invPerm (p : List ℕ) : List ℕ := (List.range p.length).map (fun i => p.indexOf i)

/-- `(x & ~1) | b` on a two's-complement sample: clearing the LSB is flooring
to the even below (`/` on `ℤ` rounds toward −∞ for the positive divisor 2),
then the bit is OR-ed in (added, since the LSB is now 0). -/
def setLsb (x : ℤ) (b : ℕ) : ℤ := 2 * (x / 2) + b

/-- `x & 1` on a two's-complement sample: the LSB as 0/1. -/
def lsb (x : ℤ) : ℕ := (x % 2).toNat

/-- `(data[order[:k]] & 1)`: read the LSBs at a list of positions. -/
def readBits (data : List ℤ) (pos : List ℕ) : List ℕ := pos.map (fun p => lsb (data.getD p 0))

/-- `flat[indices] = (flat[indices] & ~1) | bits`: numpy evaluates the
right-hand side from the array before assignment (`orig`), then assigns the
positions one by one. -/
def writeBits (orig : List ℤ) (d : List ℤ) (pbs : List (ℕ × ℕ)) : List ℤ :=
  pbs.foldl (fun d pb => d.set pb.1 (setLsb (orig.getD pb.1 0) pb.2)) d

/-- The external primitives the core merely composes, supplied as functions
(the specification scopes them out as collaborators):
`sha256` the cryptographic hash on byte strings; `rng s i` the `i`-th uniform
draw of the deterministic generator seeded with `s`
(`np.random.default_rng(s).random(n)[i]`, prefix-stable in `n`);
`rngPerm s n` the generator's random permutation of `[0, n)`
(`rng.permutation(n)`); `rmsFn` the per-frame RMS aggregate; `percentileFn`
`np.percentile` on a non-empty array; `crc32` (`zlib.crc32`); and the AES-CBC
adapter — `aesEnc` returns the `IV ‖ ciphertext` blob (the per-call random IV
is folded into the environment), `aesDec` returns `none` where `aes_decrypt`
raises (the caller catches every exception from it). -/
structure Env where
  sha256 : List ℕ → List ℕ
  rng : ℕ → ℕ → ℚ
  rngPerm : ℕ → ℕ → List ℕ
  rmsFn : List ℤ → ℚ
  percentileFn : List ℚ → ℚ → ℚ
  crc32 : List ℕ → ℕ
  aesEnc : List ℕ → List ℕ → List ℕ
  aesDec : List ℕ → List ℕ → Option (List ℕ)

/-- `_frame_edges`: frame starts `0, hop, 2·hop, …` below `n`, each frame
clipped to `n`.  The source's `start ≥ end` break fires only when
`frame_size = 0` (then at the very first start, yielding `[]`); `hop_size = 0`
raises in Python's `range` and is excluded by every claim's validity premise. -/
def frame_edges (n frameSize hopSize : ℕ) : List (ℕ × ℕ) :=
  if frameSize = 0 then []
  else ((List.range n).filter (fun s => s % hopSize = 0)).map
    (fun s => (s, min (s + frameSize) n))

/-- `_normalize_scores`: min-max normalization, saturating to all-ones when
the value range is below `1e-12`. -/
def normalize_scores (xs : List ℚ) : List ℚ :=
  if xs = [] then xs
  else
    let mn := xs.foldl min (xs.headD 0)
    let mx := xs.foldl max (xs.headD 0)
    if mx - mn < 1 / 10 ^ 12 then xs.map (fun _ => 1)
    else xs.map (fun x => (x - mn) / (mx - mn))

/-- `_hash_to_seed`: first 8 bytes of the hash digest, big-endian unsigned. -/
def hash_to_seed (sha256 : List ℕ → List ℕ) (key : List ℕ) : ℕ :=
  bytesBEToNat ((sha256 key).take 8)

/-- Per-frame scores of `generate_order_indices` after normalization and the
optional percentile attenuation (`scores[low] *= 0.1`).  `none` models
`np.percentile` raising on an empty score array (empty buffer with
`energy_percentile > 0`). -/
def order_scores (env : Env) (data : List ℤ) (frameSize hopSize : ℕ)
    (energyPercentile : ℚ) : Option (List ℚ) :=
  let edges := frame_edges data.length frameSize hopSize
  let rms := edges.map (fun se => env.rmsFn ((data.drop se.1).take (se.2 - se.1)))
  let scores := normalize_scores rms
  if 0 < energyPercentile then
    if scores = [] then none
    else
      let thr := env.percentileFn scores energyPercentile
      some (scores.map (fun s => if s < thr then s * (1 / 10) else s))
  else some scores

/-- `per_sample_score = np.zeros(n)` then `per_sample_score[s:e] = sc` frame by
frame (later overlapping frames overwrite earlier ones, as in the loop). -/
def broadcast_scores (n : ℕ) (edges : List (ℕ × ℕ)) (scores : List ℚ) : List ℚ :=
  (edges.zip scores).foldl
    (fun acc esc => acc.mapIdx (fun i x => if esc.1.1 ≤ i ∧ i < esc.1.2 then esc.2 else x))
    (List.replicate n 0)

/-- The per-sample sort key `rand / (per_sample_score + 1e-6)` given the
per-frame scores. -/
def ord_key_fn (env : Env) (data : List ℤ) (key : List ℕ) (frameSize hopSize : ℕ)
    (scores : List ℚ) (i : ℕ) : ℚ :=
  env.rng (hash_to_seed env.sha256 key) i /
    ((broadcast_scores data.length (frame_edges data.length frameSize hopSize) scores).getD i 0
      + 1 / 1000000)

/-- The order of the stable ascending argsort: lexicographic on
(key value, sample index).  A stable argsort of the key array is exactly the
sort of `[0, n)` by this total linear order — ties in the key resolve to the
original index order. -/
def argsort_rel (k : ℕ → ℚ) (i j : ℕ) : Prop :=
  k i < k j ∨ (k i = k j ∧ i ≤ j)

instance argsort_rel_decidable (k : ℕ → ℚ) : DecidableRel (argsort_rel k) := fun i j =>
  inferInstanceAs (Decidable (_ ∨ _))

instance argsort_rel_trans (k : ℕ → ℚ) : IsTrans ℕ (argsort_rel k) := by
  constructor
  intro a b c h1 h2
  rcases h1 with h1 | ⟨he1, hi1⟩ <;> rcases h2 with h2 | ⟨he2, hi2⟩
  · exact Or.inl (h1.trans h2)
  · exact Or.inl (he2 ▸ h1)
  · exact Or.inl (he1 ▸ h2)
  · exact Or.inr ⟨he1.trans he2, hi1.trans hi2⟩

instance argsort_rel_total (k : ℕ → ℚ) : IsTotal ℕ (argsort_rel k) := by
  constructor
  intro a b
  rcases lt_trichotomy (k a) (k b) with h | h | h
  · exact Or.inl (Or.inl h)
  · rcases Nat.le_total a b with hab | hab
    · exact Or.inl (Or.inr ⟨h, hab⟩)
    · exact Or.inr (Or.inr ⟨h.symm, hab⟩)
  · exact Or.inr (Or.inl h)

/-- `generate_order_indices`: the stable ascending argsort
(`np.argsort(ord_key, kind='mergesort')`) of all sample indices on the key
`rand/(score+1e-6)`.  A stable argsort is the sort of `[0, n)` by
`argsort_rel`; it is modelled by the structurally recursive stable
`insertionSort`, which computes the same list as any stable sort on this
relation.  `none` models the `np.percentile` exception on an empty buffer
with `energy_percentile > 0`. -/
def generate_order_indices (env : Env) (data : List ℤ) (key : List ℕ)
    (frameSize hopSize : ℕ) (energyPercentile : ℚ) : Option (List ℕ) :=
  match order_scores env data frameSize hopSize energyPercentile with
  | none => none
  | some scores =>
    some (List.insertionSort
      (argsort_rel (ord_key_fn env data key frameSize hopSize scores))
      (List.range data.length))

/-- Errors escaping the core as Python exceptions. -/
inductive CoreError
  | invalidRepeat                       -- `ValueError` on an even or < 1 repeat
  | orderFail                           -- `np.percentile` on an empty array
  | capacity (available requested : ℕ)  -- `ValueError("Payload too large …")`
  deriving DecidableEq

def RBST_MAGIC : List ℕ := [82, 66, 83, 84]  -- b"RBST"

/-- `_seed_from`: `sha256(key + MAGIC + nbits.to_bytes(8) + repeat.to_bytes(4))`,
first 8 bytes big-endian. -/
def seed_from (env : Env) (key : List ℕ) (nbits repeatF : ℕ) : ℕ :=
  bytesBEToNat ((env.sha256 (key ++ RBST_MAGIC ++ natToBE 8 nbits ++ natToBE 4 repeatF)).take 8)

/-- The `RBST` frame `MAGIC ‖ len ‖ crc32 ‖ payload` built by `encode_payload`
(`crc32(payload) & 0xFFFFFFFF`). -/
def robust_frame (env : Env) (payload : List ℕ) : List ℕ :=
  RBST_MAGIC ++ natToBE 4 payload.length ++ natToBE 4 (env.crc32 payload % 2 ^ 32) ++ payload

/-- The header/CRC validation at the tail of `decode_payload` (lines 108–123):
magic, declared length, slice, CRC recomputation; any mismatch returns the
Python `None`. -/
def unframe_robust (env : Env) (inner : List ℕ) : Option (List ℕ) :=
  if inner.length < 12 then none
  else if inner.take 4 ≠ RBST_MAGIC then none
  else
    let msgLen := bytesBEToNat ((inner.drop 4).take 4)
    let crcExpected := bytesBEToNat ((inner.drop 8).take 4)
    let payload := (inner.drop 12).take msgLen
    if payload.length ≠ msgLen then none
    else if env.crc32 payload % 2 ^ 32 ≠ crcExpected then none
    else some payload

/-- `encode_payload` of `robust_payload.py`. -/
def encode_payload (env : Env) (payload key : List ℕ) (repeatF : ℕ) (interleave : Bool) :
    Except CoreError (List ℕ) :=
  if repeatF < 1 then .error .invalidRepeat
  else if repeatF % 2 = 0 then .error .invalidRepeat
  else
    let inner := robust_frame env payload
    if repeatF = 1 ∧ interleave = false then .ok inner
    else
      let bits := bytesToBits inner
      let bitsRep := bits.flatMap (List.replicate repeatF)
      let bitsRep2 :=
        if interleave ∧ 0 < bitsRep.length then
          applyPerm (env.rngPerm (seed_from env key bitsRep.length repeatF) bitsRep.length) bitsRep
        else bitsRep
      .ok (bitsToBytes bitsRep2)

/-- `decode_payload` of `robust_payload.py`.  `.error` is the uncaught
`ValueError` on a bad repeat; `.ok none` is the Python `None`. -/
def decode_payload (env : Env) (encoded key : List ℕ) (repeatF : ℕ) (interleave : Bool) :
    Except CoreError (Option (List ℕ)) :=
  if repeatF < 1 then .error .invalidRepeat
  else if repeatF % 2 = 0 then .error .invalidRepeat
  else
    let bits := bytesToBits encoded
    let bits2 :=
      if interleave ∧ 0 < bits.length then
        applyPerm (invPerm (env.rngPerm (seed_from env key bits.length repeatF) bits.length)) bits
      else bits
    let innerRes : Option (List ℕ) :=
      if repeatF = 1 then some (bitsToBytes bits2)
      else if bits2.length % repeatF ≠ 0 then none
      else some (bitsToBytes ((chunks repeatF bits2).map
        (fun blk => if repeatF / 2 + 1 ≤ blk.sum then 1 else 0)))
    .ok (innerRes.bind (unframe_robust env))

def PREAMBLE : List ℕ := [65, 83, 84, 71]  -- b"ASTG"

/-- `_capacity_from_order`: `max(0, order_len - 64) // 8` bytes (`ℕ`
subtraction saturates at 0 exactly like the `max`). -/
def capacity_from_order (orderLen : ℕ) : ℕ := (orderLen - 64) / 8

/-- The robust layer engages iff `robust_repeat > 1 or not robust_interleave`
— the same test on the embed side (`embed.py` line 96) and the extract side
(`extract.py` line 101). -/
def robust_applied (robustRepeat : ℕ) (robustInterleave : Bool) : Bool :=
  decide (1 < robustRepeat) || !robustInterleave

/-- Lines 95–97 of `embed.py`: the optional cipher, then the optional robust
codec, producing the payload that gets framed. -/
def processed_payload (env : Env) (plaintext key : List ℕ) (encrypt : Bool)
    (robustRepeat : ℕ) (robustInterleave : Bool) : Except CoreError (List ℕ) :=
  let payload := if encrypt then env.aesEnc key plaintext else plaintext
  if robust_applied robustRepeat robustInterleave then
    encode_payload env payload key robustRepeat robustInterleave
  else .ok payload

/-- `embed_adaptive_keyed` of `embed.py`: the capacity check happens before
any sample is touched, and the mutation is on a copy (`data.copy()`) — the
functional result is the mutated copy. -/
def embed_adaptive_keyed (env : Env) (data : List ℤ) (plaintext key : List ℕ)
    (frameSize hopSize : ℕ) (energyPercentile : ℚ) (encrypt : Bool)
    (robustRepeat : ℕ) (robustInterleave : Bool) : Except CoreError (List ℤ) := do
  let order ← match generate_order_indices env data key frameSize hopSize energyPercentile with
    | none => Except.error CoreError.orderFail
    | some o => Except.ok o
  let payload ← processed_payload env plaintext key encrypt robustRepeat robustInterleave
  let msg := PREAMBLE ++ natToBE 4 payload.length ++ payload
  let bits := bytesToBits msg
  if order.length < bits.length then
    Except.error (CoreError.capacity (capacity_from_order order.length) payload.length)
  else
    Except.ok (writeBits data data ((order.take bits.length).zip bits))

/-- Result of `extract_adaptive_keyed`: a payload, the Python `None`, or an
uncaught exception. -/
inductive ExtractOutcome
  | ok (payload : List ℕ)
  | noResult
  | raised
  deriving DecidableEq

/-- The body of `extract_adaptive_keyed` once the order has been generated:
read the 64 header bits, verify the preamble, parse the length, read the
payload bits, then the optional robust decode and decryption. -/
def extract_after_order (env : Env) (data : List ℤ) (key : List ℕ) (decrypt : Bool)
    (robustRepeat : ℕ) (robustInterleave : Bool) (order : List ℕ) : ExtractOutcome :=
  let headerBytes := bitsToBytes (readBits data (order.take 64))
  if headerBytes.take 4 ≠ PREAMBLE then .noResult
  else
    let msgLen := bytesBEToNat ((headerBytes.drop 4).take 4)
    let totalBits := 64 + msgLen * 8
    if order.length < totalBits then .noResult
    else
      let bytesAll := bitsToBytes (readBits data (order.take totalBits))
      let payload := (bytesAll.drop 8).take msgLen
      let step2 : Except CoreError (Option (List ℕ)) :=
        if robust_applied robustRepeat robustInterleave then
          decode_payload env payload key robustRepeat robustInterleave
        else .ok (some payload)
      match step2 with
      | .error _ => .raised
      | .ok none => .noResult
      | .ok (some payload2) =>
        if decrypt then
          match env.aesDec key payload2 with
          | none => .noResult
          | some pt => .ok pt
        else .ok payload2

/-- `extract_adaptive_keyed` of `extract.py`. -/
def extract_adaptive_keyed (env : Env) (data : List ℤ) (key : List ℕ)
    (frameSize hopSize : ℕ) (energyPercentile : ℚ) (decrypt : Bool)
    (robustRepeat : ℕ) (robustInterleave : Bool) : ExtractOutcome :=
  match generate_order_indices env data key frameSize hopSize energyPercentile with
  | none => .raised
  | some order => extract_after_order env data key decrypt robustRepeat robustInterleave order

/-- C5 §counterexample: an empty buffer with `energy_percentile = 20 > 0` does
not return an empty order — `np.percentile` raises on the empty score array
(modelled as `none`), contradicting "an empty buffer yields an empty order"
with no error conditions. -/
def envC5 : Env where
  sha256 := fun _ => []
  rng := fun _ i => (i : ℚ)
  rngPerm := fun _ n => List.range n
  rmsFn := fun _ => 0
  percentileFn := fun _ _ => 0
  crc32 := fun bs => bs.sum
  aesEnc := fun _ pt => pt
  aesDec := fun _ blob => some blob

/-- Spec §4.6 with the robust codec disabled (modelled from the spec to state
that the default setting adds no `RBST` layer): optional cipher, frame, write. -/
def embed_plain (env : Env) (data : List ℤ) (plaintext key : List ℕ)
    (frameSize hopSize : ℕ) (pct : ℚ) (encrypt : Bool) : Except CoreError (List ℤ) := do
  let order ← match generate_order_indices env data key frameSize hopSize pct with
    | none => Except.error CoreError.orderFail
    | some o => Except.ok o
  let payload := if encrypt then env.aesEnc key plaintext else plaintext
  let msg := PREAMBLE ++ natToBE 4 payload.length ++ payload
  let bits := bytesToBits msg
  if order.length < bits.length then
    Except.error (CoreError.capacity (capacity_from_order order.length) payload.length)
  else
    Except.ok (writeBits data data ((order.take bits.length).zip bits))

/-- Spec §4.7 with the robust codec disabled: read, unframe, optional decipher. -/
def extract_plain (env : Env) (data : List ℤ) (key : List ℕ)
    (frameSize hopSize : ℕ) (pct : ℚ) (decrypt : Bool) : ExtractOutcome :=
  match generate_order_indices env data key frameSize hopSize pct with
  | none => .raised
  | some order =>
    let headerBytes := bitsToBytes (readBits data (order.take 64))
    if headerBytes.take 4 ≠ PREAMBLE then .noResult
    else
      let msgLen := bytesBEToNat ((headerBytes.drop 4).take 4)
      let totalBits := 64 + msgLen * 8
      if order.length < totalBits then .noResult
      else
        let bytesAll := bitsToBytes (readBits data (order.take totalBits))
        let payload := (bytesAll.drop 8).take msgLen
        if decrypt then
          match env.aesDec key payload with
          | none => .noResult
          | some pt => .ok pt
        else .ok payload

/-- A concrete environment instantiating the abstract external primitives,
used to evaluate the theorems at explicit inputs. -/
def envW : Env where
  sha256 := fun _ => []
  rng := fun _ i => (i : ℚ) * (1000001 / 1000000)
  rngPerm := fun _ n => List.range n
  rmsFn := fun _ => 0
  percentileFn := fun _ _ => 0
  crc32 := fun bs => bs.sum
  aesEnc := fun _ pt => List.replicate 16 0 ++ pt
  aesDec := fun _ blob => if 16 ≤ blob.length then some (blob.drop 16) else none

/-! ## Repeat-3 tolerance -/

/-- The `repeat = 3` repetition stream with, in each 3-bit repetition block,
the bits flipped where the adversary's mask block holds a 1. -/
def flip_blocks (bits : List ℕ) (maskBlocks : List (List ℕ)) : List ℕ :=
  (bits.zip maskBlocks).flatMap
    (fun bm => (List.replicate 3 bm.1).zipWith (fun x y => (x + y) % 2) bm.2)

instance exceptDecEq {e a : Type} [DecidableEq e] [DecidableEq a] :
    DecidableEq (Except e a) := fun x y =>
  match x, y with
  | .ok u, .ok v =>
    if h : u = v then isTrue (by rw [h])
    else isFalse (by intro hc; cases hc; exact h rfl)
  | .error u, .error v =>
    if h : u = v then isTrue (by rw [h])
    else isFalse (by intro hc; cases hc; exact h rfl)
  | .ok _, .error _ => isFalse (by intro hc; cases hc)
  | .error _, .ok _ => isFalse (by intro hc; cases hc)

/-- Environment refuting the universal round trip: the per-frame energy
aggregate is the sum of absolute sample values (any magnitude-sensitive
aggregate behaves this way on an all-zero cover), and the key-seeded draws
scramble the sample order. -/
def cexEnv : Env where
  sha256 := fun _ => []
  rng := fun _ i => ((i * 37 % 64 : ℕ) : ℚ) / 64
  rngPerm := fun _ n => List.range n
  rmsFn := fun frame => ((frame.map Int.natAbs).sum : ℚ)
  percentileFn := fun _ _ => 0
  crc32 := fun bs => bs.sum
  aesEnc := fun _ pt => List.replicate 16 0 ++ pt
  aesDec := fun _ blob => if 16 ≤ blob.length then some (blob.drop 16) else none

/-- An all-zero (silent) cover: every frame has energy 0, so score
normalization saturates to all-ones and the order is the argsort of the raw
draws.  Embedding writes 1-bits, un-saturating the normalization on the
extraction side. -/
def cover64 : List ℤ := List.replicate 64 0

def stego64 : List ℤ :=
  (embed_adaptive_keyed cexEnv cover64 [] [9] 32 32 0 false 1 true).toOption.getD []

def stegoW72 : List ℤ :=
  (embed_adaptive_keyed envW (List.replicate 72 0) [72] [9] 72 72 0 false 1 true).toOption.getD []

/-- A 64-sample stego buffer whose LSBs spell the preamble and a zero length,
so that extraction reaches the robust-decode step. -/
def preambleData : List ℤ := (bytesToBits (PREAMBLE ++ [0, 0, 0, 0])).map (fun b => (b : ℤ))

/-- Environment for the genuine embed-then-extract pair: the key-seeded draws
are pairwise-distinct values in `[0, 1)` as `rng.random` produces, the frame
aggregate is magnitude-sensitive (a sum of absolute sample values), and the
percentile of a singleton score list is its sole element, exactly as
`np.percentile` computes it. -/
def envC8 : Env where
  sha256 := fun _ => []
  rng := fun _ i => (i : ℚ) / 1024
  rngPerm := fun _ n => List.range n
  rmsFn := fun frame => ((frame.map Int.natAbs).sum : ℚ)
  percentileFn := fun scores _ => scores.headD 0
  crc32 := fun bs => bs.sum
  aesEnc := fun _ pt => List.replicate 16 0 ++ pt
  aesDec := fun _ blob => if 16 ≤ blob.length then some (blob.drop 16) else none

/-- The stego buffer of a genuine embed-then-extract pair: one byte embedded
with the default robust settings into a silent 72-sample cover processed as a
single frame. -/
def stegoC8 : List ℤ :=
  (embed_adaptive_keyed envC8 (List.replicate 72 0) [72] [9] 72 72 20 false 1 true).toOption.getD []

@[simp] theorem byteToBits_length (b : ℕ) : (byteToBits b).length = 8 := rfl

theorem byteToBits_le_one (b : ℕ) : ∀ x ∈ byteToBits b, x ≤ 1 := by
  intro x hx
  simp only [byteToBits, List.mem_cons, List.not_mem_nil, or_false] at hx
  rcases hx with h | h | h | h | h | h | h | h <;> subst h <;> omega

@[simp] theorem bytesToBits_nil : bytesToBits [] = [] := rfl

@[simp] theorem bytesToBits_cons (b : ℕ) (bs : List ℕ) :
    bytesToBits (b :: bs) = byteToBits b ++ bytesToBits bs := by
  simp [bytesToBits]

@[simp] theorem bytesToBits_append (xs ys : List ℕ) :
    bytesToBits (xs ++ ys) = bytesToBits xs ++ bytesToBits ys := by
  simp [bytesToBits]

@[simp] theorem bytesToBits_length (bs : List ℕ) : (bytesToBits bs).length = 8 * bs.length := by
  induction bs with
  | nil => rfl
  | cons b bs ih => simp [ih]; ring

theorem bytesToBits_le_one (bs : List ℕ) : ∀ x ∈ bytesToBits bs, x ≤ 1 := by
  intro x hx
  induction bs with
  | nil => simp [bytesToBits] at hx
  | cons b bs ih =>
    rw [bytesToBits_cons, List.mem_append] at hx
    rcases hx with h | h
    · exact byteToBits_le_one b x h
    · exact ih h

theorem packChunk_byteToBits (b : ℕ) (hb : b < 256) : packChunk (byteToBits b) = b := by
  simp only [packChunk, byteToBits]
  norm_num [List.foldl]
  omega

@[simp] theorem bitsToBytes_nil : bitsToBytes [] = [] := by
  rw [bitsToBytes]; simp

theorem bitsToBytes_cons_of_ne (bits : List ℕ) (h : bits ≠ []) :
    bitsToBytes bits = packChunk (bits.take 8) :: bitsToBytes (bits.drop 8) := by
  rw [bitsToBytes]; simp [h]

/-- Packing the bits of a byte string gives back the byte string. -/
theorem bitsToBytes_bytesToBits (bs : List ℕ) (hb : ∀ b ∈ bs, b < 256) :
    bitsToBytes (bytesToBits bs) = bs := by
  induction bs with
  | nil => simp
  | cons b bs ih =>
    have hlen : (byteToBits b).length = 8 := rfl
    rw [bytesToBits_cons, bitsToBytes_cons_of_ne]
    · rw [List.take_left' hlen, List.drop_left' hlen]
      rw [packChunk_byteToBits b (hb b (by simp)), ih (fun x hx => hb x (by simp [hx]))]
    · intro hcon
      have := congrArg List.length hcon
      simp at this

theorem byteToBits_packChunk (c : List ℕ) (hlen : c.length = 8) (hle : ∀ x ∈ c, x ≤ 1) :
    byteToBits (packChunk c) = c := by
  match c, hlen with
  | [b0, b1, b2, b3, b4, b5, b6, b7], _ =>
    simp only [List.mem_cons, List.not_mem_nil, or_false, forall_eq_or_imp, forall_eq] at hle
    obtain ⟨h0, h1, h2, h3, h4, h5, h6, h7⟩ := hle
    simp only [packChunk, byteToBits]
    norm_num [List.foldl]
    refine ⟨?_, ?_, ?_, ?_, ?_, ?_, ?_, ?_⟩ <;> omega

theorem foldl_bits_lt (l : List ℕ) : ∀ a : ℕ, (∀ x ∈ l, x ≤ 1) →
    l.foldl (fun a b => 2 * a + b) a < (a + 1) * 2 ^ l.length := by
  induction l with
  | nil => intro a _; simp
  | cons b l ih =>
    intro a hle
    simp only [List.foldl_cons, List.length_cons]
    have hb : b ≤ 1 := hle b (by simp)
    have := ih (2 * a + b) (fun x hx => hle x (by simp [hx]))
    have h2 : (2 * a + b + 1) * 2 ^ l.length ≤ (a + 1) * 2 ^ (l.length + 1) := by
      rw [pow_succ]
      nlinarith [Nat.pos_pow_of_pos l.length (show 0 < 2 by norm_num)]
    omega

theorem packChunk_lt (c : List ℕ) (hlen : c.length ≤ 8) (hle : ∀ x ∈ c, x ≤ 1) :
    packChunk c < 256 := by
  have hlen' : (c ++ List.replicate (8 - c.length) 0).length = 8 := by
    simp [List.length_append]; omega
  have hle' : ∀ x ∈ c ++ List.replicate (8 - c.length) 0, x ≤ 1 := by
    intro x hx
    rw [List.mem_append] at hx
    rcases hx with hx | hx
    · exact hle x hx
    · simp [List.eq_of_mem_replicate hx]
  have := foldl_bits_lt (c ++ List.replicate (8 - c.length) 0) 0 hle'
  rw [hlen'] at this
  simpa [packChunk] using this

/-- Unpacking a packed bit stream of byte-aligned length gives it back. -/
theorem bytesToBits_bitsToBytes (bits : List ℕ) (hdvd : 8 ∣ bits.length)
    (hle : ∀ x ∈ bits, x ≤ 1) : bytesToBits (bitsToBytes bits) = bits := by
  obtain ⟨k, hk⟩ := hdvd
  induction k generalizing bits with
  | zero =>
    have : bits = [] := List.eq_nil_of_length_eq_zero (by omega)
    subst this; simp
  | succ k ih =>
    have hne : bits ≠ [] := by intro hcon; subst hcon; simp at hk
    rw [bitsToBytes_cons_of_ne _ hne, bytesToBits_cons]
    have hlen8 : (bits.take 8).length = 8 := by
      rw [List.length_take]; omega
    rw [byteToBits_packChunk _ hlen8 (fun x hx => hle x (List.mem_of_mem_take hx))]
    rw [ih (bits.drop 8) (fun x hx => hle x (List.mem_of_mem_drop hx))
        (by rw [List.length_drop]; omega)]
    exact List.take_append_drop 8 bits

theorem bitsToBytes_lt (bits : List ℕ) :
    (∀ x ∈ bits, x ≤ 1) → ∀ b ∈ bitsToBytes bits, b < 256 := by
  induction bits using bitsToBytes.induct with
  | case1 => intro _ b hb; simp at hb
  | case2 bits hne ih =>
    intro hle b hb
    rw [bitsToBytes_cons_of_ne _ hne, List.mem_cons] at hb
    rcases hb with h | h
    · subst h
      exact packChunk_lt _ (by rw [List.length_take]; omega)
        (fun x hx => hle x (List.mem_of_mem_take hx))
    · exact ih (fun x hx => hle x (List.mem_of_mem_drop hx)) b h

theorem bitsToBytes_length (bits : List ℕ) : (bitsToBytes bits).length = (bits.length + 7) / 8 := by
  induction bits using bitsToBytes.induct with
  | case1 => simp
  | case2 bits hne ih =>
    rw [bitsToBytes_cons_of_ne _ hne]
    have : bits.length ≠ 0 := fun hl => hne (List.eq_nil_of_length_eq_zero hl)
    simp only [List.length_cons, ih, List.length_drop]
    omega

theorem bytesToBits_take (bs : List ℕ) (k : ℕ) :
    (bytesToBits bs).take (8 * k) = bytesToBits (bs.take k) := by
  induction bs generalizing k with
  | nil => simp
  | cons b bs ih =>
    cases k with
    | zero => simp
    | succ k =>
      rw [bytesToBits_cons, List.take_cons_succ, bytesToBits_cons]
      rw [show 8 * (k + 1) = 8 + 8 * k by ring]
      rw [List.take_append_eq_append_take]
      have h8 : (byteToBits b).length = 8 := rfl
      rw [List.take_of_length_le (by omega), h8]
      have : 8 + 8 * k - 8 = 8 * k := by omega
      rw [this, ih]

/-- `natToBE` produces genuine bytes. -/
theorem natToBE_lt (k x : ℕ) : ∀ b ∈ natToBE k x, b < 256 := by
  intro b hb
  simp only [natToBE, List.mem_map] at hb
  obtain ⟨i, _, hi⟩ := hb
  omega

@[simp] theorem natToBE_length (k x : ℕ) : (natToBE k x).length = k := by
  simp [natToBE]

theorem natToBE_succ (k x : ℕ) : natToBE (k + 1) x = (x / 256 ^ k % 256) :: natToBE k x := by
  simp only [natToBE, List.range_succ_eq_map, List.map_cons, List.map_map]
  refine List.cons_eq_cons.mpr ⟨by norm_num, ?_⟩
  apply List.map_congr_left
  intro a _
  simp only [Function.comp_apply]
  congr 2
  congr 1
  omega

theorem bytesBEToNat_cons (b : ℕ) (bs : List ℕ) :
    bytesBEToNat (b :: bs) = b * 256 ^ bs.length + bytesBEToNat bs := by
  have aux : ∀ (l : List ℕ) (a : ℕ),
      l.foldl (fun a b => 256 * a + b) a = a * 256 ^ l.length + l.foldl (fun a b => 256 * a + b) 0 := by
    intro l
    induction l with
    | nil => intro a; simp
    | cons c l ih =>
      intro a
      simp only [List.foldl_cons, List.length_cons]
      rw [ih (256 * a + c), ih (256 * 0 + c)]
      ring
  simp only [bytesBEToNat, List.foldl_cons]
  rw [aux bs (256 * 0 + b)]
  ring

/-- Big-endian round trip: reading back `k` big-endian bytes of `x` gives `x mod 256^k`. -/
theorem bytesBEToNat_natToBE (k x : ℕ) : bytesBEToNat (natToBE k x) = x % 256 ^ k := by
  induction k with
  | zero => simp [natToBE, bytesBEToNat, Nat.mod_one]
  | succ k ih =>
    rw [natToBE_succ, bytesBEToNat_cons, ih, natToBE_length]
    have : (256 : ℕ) ^ (k + 1) = 256 ^ k * 256 := by ring
    rw [this, Nat.mod_mul]
    ring

@[simp] theorem chunks_nil (r : ℕ) : chunks r [] = [] := by rw [chunks]; simp

theorem chunks_cons_of_ne (r : ℕ) (l : List ℕ) (h : l ≠ []) (hr : r ≠ 0) :
    chunks r l = l.take r :: chunks r (l.drop r) := by
  rw [chunks]; simp [h, hr]

/-- Chunking a concatenation of length-`r` blocks recovers the blocks. -/
theorem chunks_flatten (r : ℕ) (hr : r ≠ 0) (ls : List (List ℕ))
    (hl : ∀ l ∈ ls, l.length = r) : chunks r ls.flatten = ls := by
  induction ls with
  | nil => simp
  | cons l ls ih =>
    have hlen : l.length = r := hl l (by simp)
    rw [List.flatten_cons, chunks_cons_of_ne r _ ?_ hr]
    · rw [List.take_left' hlen, List.drop_left' hlen,
        ih (fun x hx => hl x (by simp [hx]))]
    · intro hcon
      have := congrArg List.length hcon
      simp only [List.length_append, List.length_nil] at this
      omega

@[simp] theorem applyPerm_length (p xs : List ℕ) : (applyPerm p xs).length = p.length := by
  simp [applyPerm]

@[simp] theorem invPerm_length (p : List ℕ) : (invPerm p).length = p.length := by
  simp [invPerm]

/-- De-interleaving with the rebuilt inverse permutation undoes interleaving. -/
theorem applyPerm_invPerm (p xs : List ℕ) (n : ℕ) (hp : p.Perm (List.range n))
    (hxs : xs.length = n) : applyPerm (invPerm p) (applyPerm p xs) = xs := by
  have hplen : p.length = n := by rw [hp.length_eq, List.length_range]
  apply List.ext_getElem
  · simp [hplen, hxs]
  · intro i h1 h2
    simp only [applyPerm_length, invPerm_length, hplen] at h1
    have hi_mem : i ∈ p := hp.mem_iff.mpr (List.mem_range.mpr (by omega))
    have hidx : p.indexOf i < p.length := List.indexOf_lt_length.mpr hi_mem
    simp only [applyPerm, invPerm, List.getElem_map, List.getElem_range]
    rw [List.getD_eq_getElem _ 0 (by simpa [hplen] using hidx)]
    simp only [List.getElem_map]
    have hpi : p[p.indexOf i] = i := List.getElem_indexOf hidx
    rw [hpi]
    exact List.getD_eq_getElem _ 0 (by rw [hxs]; omega)

@[simp] theorem lsb_setLsb (x : ℤ) (b : ℕ) (hb : b ≤ 1) : lsb (setLsb x b) = b := by
  simp only [lsb, setLsb]
  omega

@[simp] theorem writeBits_nil (orig d : List ℤ) : writeBits orig d [] = d := rfl

theorem writeBits_cons (orig d : List ℤ) (pb : ℕ × ℕ) (pbs : List (ℕ × ℕ)) :
    writeBits orig d (pb :: pbs) =
      writeBits orig (d.set pb.1 (setLsb (orig.getD pb.1 0) pb.2)) pbs := rfl

@[simp] theorem writeBits_length (orig : List ℤ) (pbs : List (ℕ × ℕ)) : ∀ d : List ℤ,
    (writeBits orig d pbs).length = d.length := by
  induction pbs with
  | nil => intro d; rfl
  | cons pb pbs ih =>
    intro d
    rw [writeBits_cons, ih]
    simp

/-- Positions not assigned are untouched. -/
theorem writeBits_getD_not_mem (orig : List ℤ) (pbs : List (ℕ × ℕ)) : ∀ (d : List ℤ) (i : ℕ),
    i ∉ pbs.map Prod.fst → (writeBits orig d pbs).getD i 0 = d.getD i 0 := by
  induction pbs with
  | nil => intro d i _; rfl
  | cons pb pbs ih =>
    intro d i hi
    simp only [List.map_cons, List.mem_cons, not_or] at hi
    rw [writeBits_cons, ih _ _ hi.2]
    simp only [List.getD_eq_getElem?_getD]
    rw [List.getElem?_set_ne (fun hcon => hi.1 hcon.symm)]

/-- With distinct positions inside the array, each assigned position holds
exactly its bit written over the original sample. -/
theorem writeBits_getD_mem (orig : List ℤ) (pbs : List (ℕ × ℕ)) : ∀ d : List ℤ,
    d.length = orig.length → (pbs.map Prod.fst).Nodup →
    (∀ q ∈ pbs.map Prod.fst, q < orig.length) →
    ∀ pb ∈ pbs, (writeBits orig d pbs).getD pb.1 0 = setLsb (orig.getD pb.1 0) pb.2 := by
  induction pbs with
  | nil => intro d _ _ _ pb hpb; simp at hpb
  | cons hd pbs ih =>
    intro d hdlen hnd hlt pb hpb
    simp only [List.map_cons, List.nodup_cons] at hnd
    rcases List.mem_cons.mp hpb with heq | hmem
    · subst heq
      rw [writeBits_cons, writeBits_getD_not_mem _ _ _ _ hnd.1]
      have hplt : pb.1 < d.length := by
        rw [hdlen]; exact hlt pb.1 (by simp)
      simp only [List.getD_eq_getElem?_getD]
      rw [List.getElem?_set_self hplt]
      rfl
    · exact ih _ (by simp [hdlen]) hnd.2 (fun q hq => hlt q (by simp [hq])) pb hmem

/-- Every cell of the written buffer is the original cell or the original
cell with its LSB overwritten by one of the written bits. -/
theorem writeBits_getD_cases (orig : List ℤ) (pbs : List (ℕ × ℕ)) : ∀ (d : List ℤ) (i : ℕ),
    (writeBits orig d pbs).getD i 0 = d.getD i 0 ∨
      ∃ pb ∈ pbs, pb.1 = i ∧ (writeBits orig d pbs).getD i 0 = setLsb (orig.getD i 0) pb.2 := by
  induction pbs with
  | nil => intro d i; left; rfl
  | cons hd pbs ih =>
    intro d i
    rw [writeBits_cons]
    rcases ih (d.set hd.1 (setLsb (orig.getD hd.1 0) hd.2)) i with h | ⟨pb, hpb, hfst, hval⟩
    · by_cases hi : hd.1 = i
      · subst hi
        by_cases hlt : hd.1 < d.length
        · right
          exact ⟨hd, by simp, rfl, by
            rw [h]
            simp only [List.getD_eq_getElem?_getD]
            rw [List.getElem?_set_self hlt]
            rfl⟩
        · left
          rw [h]
          simp only [List.getD_eq_getElem?_getD]
          rw [List.set_eq_of_length_le (by omega)]
      · left
        rw [h]
        simp only [List.getD_eq_getElem?_getD]
        rw [List.getElem?_set_ne hi]
    · right
      exact ⟨pb, by simp [hpb], hfst, hval⟩

/-! ## Helper lemmas about the order generator -/

theorem order_scores_ne_nil (env : Env) (data : List ℤ) (frameSize hopSize : ℕ)
    (pct : ℚ) (scores : List ℚ) (hfS : frameSize ≠ 0) (hdata : data ≠ [])
    (hs : order_scores env data frameSize hopSize pct = some scores) : scores ≠ [] := by
  have hn : 0 < data.length := List.length_pos.mpr hdata
  have hedges : frame_edges data.length frameSize hopSize ≠ [] := by
    unfold frame_edges
    rw [if_neg hfS]
    intro hcon
    rw [List.map_eq_nil_iff, List.filter_eq_nil_iff] at hcon
    exact hcon 0 (List.mem_range.mpr hn) (by simp)
  have hrms : (frame_edges data.length frameSize hopSize).map
      (fun se => env.rmsFn ((data.drop se.1).take (se.2 - se.1))) ≠ [] := by
    simpa [List.map_eq_nil_iff] using hedges
  have hnorm : ∀ xs : List ℚ, xs ≠ [] → normalize_scores xs ≠ [] := by
    intro xs hxs
    unfold normalize_scores
    rw [if_neg hxs]
    simp only []
    split <;> simpa [List.map_eq_nil_iff]
  unfold order_scores at hs
  by_cases hpct : 0 < pct
  · rw [if_pos hpct] at hs
    split at hs
    · exact absurd hs (by simp)
    · rename_i hne
      intro hcon
      subst hcon
      simp only [Option.some.injEq] at hs
      exact hne (List.map_eq_nil_iff.mp hs)
  · rw [if_neg hpct] at hs
    simp only [Option.some.injEq] at hs
    subst hs
    exact hnorm _ hrms

theorem generate_order_eq_sort (env : Env) (data : List ℤ) (key : List ℕ)
    (frameSize hopSize : ℕ) (pct : ℚ) (scores : List ℚ)
    (hs : order_scores env data frameSize hopSize pct = some scores) :
    generate_order_indices env data key frameSize hopSize pct =
      some (List.insertionSort
        (argsort_rel (ord_key_fn env data key frameSize hopSize scores))
        (List.range data.length)) := by
  unfold generate_order_indices
  rw [hs]

theorem generate_order_perm_helper (env : Env) (data : List ℤ) (key : List ℕ)
    (frameSize hopSize : ℕ) (pct : ℚ) (order : List ℕ)
    (h : generate_order_indices env data key frameSize hopSize pct = some order) :
    order.Perm (List.range data.length) := by
  unfold generate_order_indices at h
  cases hs : order_scores env data frameSize hopSize pct with
  | none => rw [hs] at h; exact absurd h (by simp)
  | some scores =>
    rw [hs] at h
    simp only [Option.some.injEq] at h
    subst h
    exact List.perm_insertionSort _ _

/-- C2 §order-permutation: every order returned by `generate_order_indices` is
a permutation of `[0, n)` — every sample index appears exactly once. -/
theorem generate_order_perm (env : Env) (data : List ℤ) (key : List ℕ)
    (frameSize hopSize : ℕ) (pct : ℚ) (order : List ℕ)
    (h : generate_order_indices env data key frameSize hopSize pct = some order) :
    order.Perm (List.range data.length) :=
  generate_order_perm_helper env data key frameSize hopSize pct order h

/-- C5 §no-error (amended): on a non-empty buffer with a positive frame size
the generator always succeeds; on an empty buffer it returns the empty order
when `energy_percentile ≤ 0` and fails (the `np.percentile` exception on an
empty score array) when `energy_percentile > 0`. -/
theorem generate_order_no_error (env : Env) (data : List ℤ) (key : List ℕ)
    (frameSize hopSize : ℕ) (pct : ℚ) (hfS : frameSize ≠ 0) :
    (data ≠ [] → (generate_order_indices env data key frameSize hopSize pct).isSome) ∧
    generate_order_indices env [] key frameSize hopSize pct =
      (if 0 < pct then none else some []) := by
  constructor
  · intro hdata
    unfold generate_order_indices
    cases hs : order_scores env data frameSize hopSize pct with
    | none =>
      exfalso
      unfold order_scores at hs
      by_cases hpct : 0 < pct
      · rw [if_pos hpct] at hs
        split at hs
        · rename_i hnil
          -- the score list of a non-empty buffer is non-empty
          have hn : 0 < data.length := List.length_pos.mpr hdata
          have h0 : (0, min (0 + frameSize) data.length) ∈
              frame_edges data.length frameSize hopSize := by
            unfold frame_edges
            rw [if_neg hfS]
            exact List.mem_map_of_mem _ (List.mem_filter.mpr ⟨List.mem_range.mpr hn, by simp⟩)
          have hene : frame_edges data.length frameSize hopSize ≠ [] := by
            intro hcon
            rw [hcon] at h0
            exact List.not_mem_nil _ h0
          have : normalize_scores ((frame_edges data.length frameSize hopSize).map
              (fun se => env.rmsFn ((data.drop se.1).take (se.2 - se.1)))) ≠ [] := by
            unfold normalize_scores
            have hmne : (frame_edges data.length frameSize hopSize).map
                (fun se => env.rmsFn ((data.drop se.1).take (se.2 - se.1))) ≠ [] := by
              simpa [List.map_eq_nil_iff] using hene
            rw [if_neg hmne]
            simp only []
            split <;> simp [List.map_eq_nil_iff, hene]
          exact this hnil
        · exact absurd hs (by simp)
      · rw [if_neg hpct] at hs
        exact absurd hs (by simp)
    | some scores => simp
  · unfold generate_order_indices order_scores frame_edges normalize_scores
    by_cases hpct : 0 < pct
    · simp [hpct]
    · simp [hpct, List.insertionSort]

theorem generate_order_empty_percentile_fails :
    generate_order_indices envC5 [] [1] 1024 512 20 = none := by decide

/-- C7 §stable-argsort: on success the order is exactly the stable ascending
sort of all sample indices on the key `rand i / (score i + 1e-6)`: along the
order the key is non-decreasing, and a tie is resolved in original
sample-index order; `rand` is the stream of the deterministic generator seeded
with the big-endian value of the first 8 bytes of the cryptographic hash of
the key bytes. -/
theorem generate_order_stable_sort (env : Env) (data : List ℤ) (key : List ℕ)
    (frameSize hopSize : ℕ) (pct : ℚ) (scores : List ℚ) (order : List ℕ)
    (hs : order_scores env data frameSize hopSize pct = some scores)
    (h : generate_order_indices env data key frameSize hopSize pct = some order) :
    (order.Pairwise (fun a b =>
        ord_key_fn env data key frameSize hopSize scores a <
          ord_key_fn env data key frameSize hopSize scores b ∨
        (ord_key_fn env data key frameSize hopSize scores a =
          ord_key_fn env data key frameSize hopSize scores b ∧ a < b)) ∧
      order.Perm (List.range data.length)) ∧
    (∀ i : ℕ, ord_key_fn env data key frameSize hopSize scores i =
      env.rng (bytesBEToNat ((env.sha256 key).take 8)) i /
        ((broadcast_scores data.length (frame_edges data.length frameSize hopSize)
          scores).getD i 0 + 1 / 1000000)) := by
  rw [generate_order_eq_sort env data key frameSize hopSize pct scores hs] at h
  simp only [Option.some.injEq] at h
  subst h
  set k := ord_key_fn env data key frameSize hopSize scores with hk
  refine ⟨⟨?_, List.perm_insertionSort _ _⟩, fun i => rfl⟩
  have hsorted := List.sorted_insertionSort (argsort_rel k) (List.range data.length)
  have hnodup : (List.insertionSort (argsort_rel k) (List.range data.length)).Nodup :=
    (List.perm_insertionSort (argsort_rel k) (List.range data.length)).symm.nodup
      (List.nodup_range _)
  refine (hsorted.and hnodup).imp ?_
  intro a b hab
  obtain ⟨hle, hne⟩ := hab
  rcases hle with hlt | ⟨heq, hab⟩
  · exact Or.inl hlt
  · exact Or.inr ⟨heq, lt_of_le_of_ne hab hne⟩

theorem ok_bind {ε α β : Type} (a : α) (f : α → Except ε β) :
    ((Except.ok a : Except ε α) >>= f) = f a := rfl

theorem msg_bits_length (payload : List ℕ) :
    (bytesToBits (PREAMBLE ++ natToBE 4 payload.length ++ payload)).length =
      8 * (8 + payload.length) := by
  rw [bytesToBits_length]
  simp [PREAMBLE]
  ring

/-- C6 §capacity-boundary: with the robust layer at its defaults, embedding
succeeds exactly when the framed message's `8·(8+len)` bits fit the order
(equality included), and one more bit — hence one more byte — fails with the
capacity error computed before any mutation, reporting
`(order.length − 64 header bits) / 8` bytes floored at 0. -/
theorem embed_capacity_boundary (env : Env) (data : List ℤ) (pt key : List ℕ)
    (frameSize hopSize : ℕ) (pct : ℚ) (encrypt : Bool) (order payload : List ℕ)
    (horder : generate_order_indices env data key frameSize hopSize pct = some order)
    (hpayload : processed_payload env pt key encrypt 1 true = .ok payload) :
    ((∃ stego, embed_adaptive_keyed env data pt key frameSize hopSize pct encrypt 1 true =
        .ok stego) ↔ 8 * (8 + payload.length) ≤ order.length) ∧
    (order.length < 8 * (8 + payload.length) →
      embed_adaptive_keyed env data pt key frameSize hopSize pct encrypt 1 true =
        .error (.capacity (capacity_from_order order.length) payload.length)) := by
  unfold embed_adaptive_keyed
  rw [horder, hpayload]
  simp only [ok_bind, msg_bits_length]
  constructor
  · constructor
    · rintro ⟨stego, hst⟩
      by_contra hcap
      rw [if_pos (by omega)] at hst
      exact Except.noConfusion hst
    · intro hfit
      exact ⟨_, by rw [if_neg (by omega)]⟩
  · intro hover
    rw [if_pos hover]

/-- C9 §robust-gating: the robust layer engages iff
`robust_repeat > 1 ∨ robust_interleave = false`, through the same test on the
embed and extract sides; at the default `(1, true)` the pipeline is exactly
the plain frame-and-write / read-and-unframe (no `RBST` frame, CRC,
repetition or interleaving anywhere), and at `(1, false)` the encoder emits
the CRC-protected `RBST` frame unrepeated and uninterleaved. -/
theorem robust_layer_gating (env : Env) (data : List ℤ) (pt key p : List ℕ)
    (frameSize hopSize : ℕ) (pct : ℚ) (encrypt : Bool) :
    (∀ (r : ℕ) (il : Bool), robust_applied r il = true ↔ (1 < r ∨ il = false)) ∧
    processed_payload env pt key encrypt 1 true =
      .ok (if encrypt then env.aesEnc key pt else pt) ∧
    embed_adaptive_keyed env data pt key frameSize hopSize pct encrypt 1 true =
      embed_plain env data pt key frameSize hopSize pct encrypt ∧
    extract_adaptive_keyed env data key frameSize hopSize pct encrypt 1 true =
      extract_plain env data key frameSize hopSize pct encrypt ∧
    encode_payload env p key 1 false =
      .ok (RBST_MAGIC ++ natToBE 4 p.length ++ natToBE 4 (env.crc32 p % 2 ^ 32) ++ p) := by
  refine ⟨?_, ?_, ?_, ?_, ?_⟩
  · intro r il
    cases il <;> simp [robust_applied]
  · rfl
  · unfold embed_adaptive_keyed embed_plain processed_payload
    rfl
  · unfold extract_adaptive_keyed extract_plain
    rfl
  · unfold encode_payload robust_frame
    norm_num

/-! ## Robust codec round trip -/

theorem robust_frame_length (env : Env) (payload : List ℕ) :
    (robust_frame env payload).length = 12 + payload.length := by
  simp [robust_frame, RBST_MAGIC]
  omega

theorem robust_frame_lt (env : Env) (payload : List ℕ) (hb : ∀ b ∈ payload, b < 256) :
    ∀ b ∈ robust_frame env payload, b < 256 := by
  intro b hb2
  simp only [robust_frame, List.mem_append] at hb2
  rcases hb2 with ((h | h) | h) | h
  · simp only [RBST_MAGIC, List.mem_cons, List.not_mem_nil, or_false] at h
    rcases h with h | h | h | h <;> omega
  · exact natToBE_lt _ _ _ h
  · exact natToBE_lt _ _ _ h
  · exact hb b h

theorem unframe_robust_frame (env : Env) (payload : List ℕ)
    (hlen : payload.length < 2 ^ 32) :
    unframe_robust env (robust_frame env payload) = some payload := by
  have h4 : RBST_MAGIC.length = 4 := rfl
  have hL : (natToBE 4 payload.length).length = 4 := natToBE_length 4 _
  have hC : (natToBE 4 (env.crc32 payload % 2 ^ 32)).length = 4 := natToBE_length 4 _
  have htake4 : (robust_frame env payload).take 4 = RBST_MAGIC := by
    rw [robust_frame, List.append_assoc, List.append_assoc, List.take_left' h4]
  have hdrop4 : (robust_frame env payload).drop 4 =
      natToBE 4 payload.length ++ (natToBE 4 (env.crc32 payload % 2 ^ 32) ++ payload) := by
    rw [robust_frame, List.append_assoc, List.append_assoc, List.drop_left' h4]
  have hdrop8 : (robust_frame env payload).drop 8 =
      natToBE 4 (env.crc32 payload % 2 ^ 32) ++ payload := by
    have : (8 : ℕ) = 4 + 4 := rfl
    rw [this, ← List.drop_drop, hdrop4, List.drop_left' hL]
  have hdrop12 : (robust_frame env payload).drop 12 = payload := by
    have : (12 : ℕ) = 8 + 4 := rfl
    rw [this, ← List.drop_drop, hdrop8, List.drop_left' hC]
  have hmsgLen : bytesBEToNat (((robust_frame env payload).drop 4).take 4) =
      payload.length := by
    have hlen' : payload.length < 256 ^ 4 := by norm_num at hlen ⊢; omega
    rw [hdrop4, List.take_left' hL, bytesBEToNat_natToBE, Nat.mod_eq_of_lt hlen']
  have hcrc : bytesBEToNat (((robust_frame env payload).drop 8).take 4) =
      env.crc32 payload % 2 ^ 32 := by
    have h1 : env.crc32 payload % 2 ^ 32 < 256 ^ 4 := by
      have := Nat.mod_lt (env.crc32 payload) (show 0 < 2 ^ 32 by norm_num)
      norm_num at this ⊢
      omega
    rw [hdrop8, List.take_left' hC, bytesBEToNat_natToBE, Nat.mod_eq_of_lt h1]
  unfold unframe_robust
  rw [if_neg (by rw [robust_frame_length]; omega)]
  rw [if_neg (by rw [htake4]; exact fun hcon => hcon rfl)]
  simp only [hmsgLen, hcrc, hdrop12, List.take_length]
  rw [if_neg (by exact fun hcon => hcon rfl)]
  rw [if_neg (by exact fun hcon => hcon rfl)]

@[simp] theorem flatMap_replicate_length (l : List ℕ) (r : ℕ) :
    (l.flatMap (List.replicate r)).length = r * l.length := by
  induction l with
  | nil => simp
  | cons b l ih => simp [ih]; ring

theorem flatMap_replicate_le_one (l : List ℕ) (r : ℕ) (hle : ∀ x ∈ l, x ≤ 1) :
    ∀ x ∈ l.flatMap (List.replicate r), x ≤ 1 := by
  intro x hx
  rw [List.mem_flatMap] at hx
  obtain ⟨b, hb, hxb⟩ := hx
  rw [List.eq_of_mem_replicate hxb]
  exact hle b hb

theorem applyPerm_le_one (p xs : List ℕ) (hle : ∀ x ∈ xs, x ≤ 1) :
    ∀ x ∈ applyPerm p xs, x ≤ 1 := by
  intro x hx
  simp only [applyPerm, List.mem_map] at hx
  obtain ⟨i, _, hi⟩ := hx
  subst hi
  rcases List.getD_eq_getElem?_getD xs i 0 ▸ Option.getD_eq_iff.mp rfl with h
  by_cases hilt : i < xs.length
  · rw [List.getD_eq_getElem xs 0 hilt]
    exact hle _ (List.getElem_mem hilt)
  · rw [List.getD_eq_default xs 0 (by omega)]
    omega

theorem chunks_flatMap_replicate (r : ℕ) (hr : r ≠ 0) (l : List ℕ) :
    chunks r (l.flatMap (List.replicate r)) = l.map (List.replicate r) := by
  rw [List.flatMap_def]
  exact chunks_flatten r hr (l.map (List.replicate r))
    (by intro x hx; rw [List.mem_map] at hx; obtain ⟨b, _, hb⟩ := hx; rw [← hb]; simp)

theorem majority_replicate (r b : ℕ) (hr : 1 ≤ r) (hb : b ≤ 1) :
    (if r / 2 + 1 ≤ (List.replicate r b).sum then 1 else 0) = b := by
  rw [List.sum_replicate, smul_eq_mul]
  interval_cases b
  · rw [if_neg (by omega)]
  · rw [if_pos (by omega)]

theorem flatMap_replicate_one (l : List ℕ) : l.flatMap (List.replicate 1) = l := by
  induction l with
  | nil => rfl
  | cons b l ih => simp [ih]

/-- Core round trip of the robust codec: for an odd repeat factor and matching
key/parameters, decoding an encoded payload recovers it exactly (the
interleave permutation regenerated during decode inverts the one applied
during encode). -/
theorem decode_encode_payload (env : Env) (payload key : List ℕ) (r : ℕ) (il : Bool)
    (hr : r % 2 = 1) (hperm : ∀ s n, (env.rngPerm s n).Perm (List.range n))
    (hbytes : ∀ b ∈ payload, b < 256) (hlen : payload.length < 2 ^ 32) :
    ∃ e, encode_payload env payload key r il = .ok e ∧
      decode_payload env e key r il = .ok (some payload) := by
  have hr1 : ¬ r < 1 := by omega
  have hr2 : ¬ r % 2 = 0 := by omega
  have hinner_lt : ∀ b ∈ robust_frame env payload, b < 256 :=
    robust_frame_lt env payload hbytes
  have hinner_bits_le : ∀ x ∈ bytesToBits (robust_frame env payload), x ≤ 1 :=
    bytesToBits_le_one _
  by_cases hcase : r = 1 ∧ il = false
  · obtain ⟨hre, hil⟩ := hcase
    subst hre; subst hil
    refine ⟨robust_frame env payload, ?_, ?_⟩
    · unfold encode_payload
      rw [if_neg hr1, if_neg hr2, if_pos ⟨rfl, rfl⟩]
    · unfold decode_payload
      norm_num
      rw [bitsToBytes_bytesToBits _ hinner_lt]
      rw [unframe_robust_frame env payload hlen]
  · -- repetition / interleave path
    have hbitsRep_le : ∀ x ∈ (bytesToBits (robust_frame env payload)).flatMap
        (List.replicate r), x ≤ 1 :=
      flatMap_replicate_le_one _ r hinner_bits_le
    have hbitsRep_len : ((bytesToBits (robust_frame env payload)).flatMap
        (List.replicate r)).length = r * (8 * (12 + payload.length)) := by
      rw [flatMap_replicate_length, bytesToBits_length, robust_frame_length]
    -- the encoded bit stream, before packing
    set bitsRep := (bytesToBits (robust_frame env payload)).flatMap (List.replicate r)
      with hbitsRep
    set s := seed_from env key bitsRep.length r with hs
    set p := env.rngPerm s bitsRep.length with hp
    have hp_perm : p.Perm (List.range bitsRep.length) := hperm s bitsRep.length
    have hp_len : p.length = bitsRep.length := by
      rw [hp_perm.length_eq, List.length_range]
    have hbitsRep2 :
        (if il ∧ 0 < bitsRep.length then applyPerm p bitsRep else bitsRep).length =
          bitsRep.length := by
      split
      · rw [applyPerm_length, hp_len]
      · rfl
    set bitsRep2 := if il ∧ 0 < bitsRep.length then applyPerm p bitsRep else bitsRep
      with hb2
    have hb2_le : ∀ x ∈ bitsRep2, x ≤ 1 := by
      rw [hb2]
      split
      · exact applyPerm_le_one p bitsRep hbitsRep_le
      · exact hbitsRep_le
    have hb2_dvd : 8 ∣ bitsRep2.length := by
      rw [hbitsRep2, hbitsRep_len]
      exact ⟨r * (12 + payload.length), by ring⟩
    have hencode : encode_payload env payload key r il = .ok (bitsToBytes bitsRep2) := by
      unfold encode_payload
      rw [if_neg hr1, if_neg hr2, if_neg hcase]
    refine ⟨bitsToBytes bitsRep2, hencode, ?_⟩
    unfold decode_payload
    rw [if_neg hr1, if_neg hr2]
    simp only []
    rw [bytesToBits_bitsToBytes bitsRep2 hb2_dvd hb2_le, hbitsRep2]
    have hrestore :
        (if il ∧ 0 < bitsRep.length then applyPerm (invPerm p) bitsRep2 else bitsRep2) =
          bitsRep := by
      rw [hb2]
      by_cases hc : il ∧ 0 < bitsRep.length
      · rw [if_pos hc, if_pos hc]
        exact applyPerm_invPerm p bitsRep bitsRep.length hp_perm rfl
      · rw [if_neg hc, if_neg hc]
    rw [hrestore]
    have hinnerRes :
        (if r = 1 then some (bitsToBytes bitsRep)
         else if bitsRep.length % r ≠ 0 then none
         else some (bitsToBytes ((chunks r bitsRep).map
           (fun blk => if r / 2 + 1 ≤ blk.sum then 1 else 0)))) =
          some (robust_frame env payload) := by
      by_cases hr1' : r = 1
      · subst hr1'
        rw [if_pos rfl, hbitsRep, flatMap_replicate_one,
          bitsToBytes_bytesToBits _ hinner_lt]
      · rw [if_neg hr1']
        rw [if_neg (by rw [hbitsRep_len]; simp [Nat.mul_mod_right])]
        rw [hbitsRep, chunks_flatMap_replicate r (by omega) _, List.map_map]
        have hmaj : ((bytesToBits (robust_frame env payload)).map
            ((fun blk => if r / 2 + 1 ≤ List.sum blk then 1 else 0) ∘ List.replicate r)) =
            bytesToBits (robust_frame env payload) := by
          have hcg : ∀ b ∈ bytesToBits (robust_frame env payload),
              ((fun blk => if r / 2 + 1 ≤ List.sum blk then 1 else 0) ∘
                List.replicate r) b = id b := fun b hb => by
            simp only [Function.comp_apply, id_eq]
            exact majority_replicate r b (by omega) (hinner_bits_le b hb)
          rw [List.map_congr_left hcg, List.map_id]
        rw [hmaj, bitsToBytes_bytesToBits _ hinner_lt]
    rw [hinnerRes]
    simp only [Option.some_bind]
    rw [unframe_robust_frame env payload hlen]

/-- C3 §codec-round-trip: for every non-empty byte string, every key, every
odd `repeat ≥ 1` and both interleave settings,
`decode_payload (encode_payload x) = x` — the interleave permutation
regenerated during decode from the same key-derived seed inverts the one
applied during encode.  (`payload.length < 2^32` reflects the 4-byte length
field of the `RBST` frame.) -/
theorem robust_codec_roundtrip (env : Env) (payload key : List ℕ) (r : ℕ) (il : Bool)
    (hne : payload ≠ []) (hr : r % 2 = 1)
    (hperm : ∀ s n, (env.rngPerm s n).Perm (List.range n))
    (hbytes : ∀ b ∈ payload, b < 256) (hlen : payload.length < 2 ^ 32) :
    ∃ e, encode_payload env payload key r il = .ok e ∧
      decode_payload env e key r il = .ok (some payload) :=
  decode_encode_payload env payload key r il hr hperm hbytes hlen

theorem robust_codec_roundtrip_witness :
    ([7] : List ℕ) ≠ [] ∧
    ∃ e, encode_payload envW [7] [1] 3 true = .ok e ∧
      decode_payload envW e [1] 3 true = .ok (some [7]) :=
  ⟨by decide, robust_codec_roundtrip envW [7] [1] 3 true (by decide) (by decide)
    (fun s n => List.Perm.refl _) (by decide) (by norm_num)⟩

theorem flatMap_const_length {α : Type} (l : List α) (f : α → List ℕ) (k : ℕ)
    (h : ∀ x ∈ l, (f x).length = k) : (l.flatMap f).length = k * l.length := by
  induction l with
  | nil => simp
  | cons a l ih =>
    simp only [List.flatMap_cons, List.length_append, List.length_cons]
    rw [h a (by simp), ih (fun x hx => h x (by simp [hx]))]
    ring

theorem majority_flip_le_one (b : ℕ) (m : List ℕ) (hb : b ≤ 1) (hm : m.length = 3)
    (hle : ∀ x ∈ m, x ≤ 1) (hsum : m.sum ≤ 1) :
    (if 3 / 2 + 1 ≤ ((List.replicate 3 b).zipWith (fun x y => (x + y) % 2) m).sum then 1
     else 0) = b := by
  match m, hm with
  | [m0, m1, m2], _ =>
    simp only [List.mem_cons, List.not_mem_nil, or_false, forall_eq_or_imp, forall_eq] at hle
    obtain ⟨h0, h1, h2⟩ := hle
    simp only [List.replicate, List.zipWith, List.sum_cons, List.sum_nil] at hsum ⊢
    split <;> omega

theorem majority_flip_two (b : ℕ) (m : List ℕ) (hb : b ≤ 1) (hm : m.length = 3)
    (hle : ∀ x ∈ m, x ≤ 1) (hsum : m.sum = 2) :
    (if 3 / 2 + 1 ≤ ((List.replicate 3 b).zipWith (fun x y => (x + y) % 2) m).sum then 1
     else 0) = 1 - b := by
  match m, hm with
  | [m0, m1, m2], _ =>
    simp only [List.mem_cons, List.not_mem_nil, or_false, forall_eq_or_imp, forall_eq] at hle
    obtain ⟨h0, h1, h2⟩ := hle
    simp only [List.replicate, List.zipWith, List.sum_cons, List.sum_nil] at hsum ⊢
    split <;> omega

theorem byteToBits_complement (b : ℕ) (hb : b < 256) :
    byteToBits (255 - b) = (byteToBits b).map (fun x => 1 - x) := by
  simp only [byteToBits, List.map_cons, List.map_nil, List.cons.injEq, and_true]
  refine ⟨?_, ?_, ?_, ?_, ?_, ?_, ?_, ?_⟩ <;> omega

theorem bytesToBits_complement (bs : List ℕ) (hb : ∀ b ∈ bs, b < 256) :
    bytesToBits (bs.map (fun b => 255 - b)) = (bytesToBits bs).map (fun x => 1 - x) := by
  induction bs with
  | nil => rfl
  | cons b bs ih =>
    simp only [List.map_cons, bytesToBits_cons, List.map_append]
    rw [byteToBits_complement b (hb b (by simp)), ih (fun x hx => hb x (by simp [hx]))]

theorem zipWith_mod2_le_one (a b : List ℕ) :
    ∀ z ∈ a.zipWith (fun x y => (x + y) % 2) b, z ≤ 1 := by
  induction a generalizing b with
  | nil => intro z hz; simp at hz
  | cons x a ih =>
    intro z hz
    cases b with
    | nil => simp at hz
    | cons y b =>
      simp only [List.zipWith_cons_cons, List.mem_cons] at hz
      rcases hz with h | h
      · omega
      · exact ih b z h

/-- C4 §repeat-3 tolerance: with `repeat = 3` and matching key/parameters, any
adversarial pattern flipping at most one bit inside each 3-bit repetition
block of the encoded stream still decodes to the original payload; flipping
exactly two bits in every block makes every majority vote come out inverted,
the magic (hence CRC) check fails, and `decode_payload` returns the Python
`None` — in both cases it returns rather than raising.  (The flipped encoded
bytes are written as the packed, optionally interleaved, corrupted stream:
interleaving commutes with the per-position flips, so this ranges over
exactly the flipped versions of `encode_payload`'s output.) -/
theorem robust_codec_tolerance (env : Env) (payload key : List ℕ) (il : Bool)
    (maskBlocks : List (List ℕ))
    (hperm : ∀ s n, (env.rngPerm s n).Perm (List.range n))
    (hbytes : ∀ b ∈ payload, b < 256) (hlen : payload.length < 2 ^ 32)
    (hmlen : maskBlocks.length = (bytesToBits (robust_frame env payload)).length)
    (hmblk : ∀ m ∈ maskBlocks, m.length = 3 ∧ ∀ x ∈ m, x ≤ 1) :
    ((∀ m ∈ maskBlocks, m.sum ≤ 1) →
      decode_payload env
        (bitsToBytes
          (if il then
            applyPerm
              (env.rngPerm
                (seed_from env key
                  (flip_blocks (bytesToBits (robust_frame env payload)) maskBlocks).length 3)
                (flip_blocks (bytesToBits (robust_frame env payload)) maskBlocks).length)
              (flip_blocks (bytesToBits (robust_frame env payload)) maskBlocks)
          else flip_blocks (bytesToBits (robust_frame env payload)) maskBlocks))
        key 3 il = .ok (some payload)) ∧
    ((∀ m ∈ maskBlocks, m.sum = 2) →
      decode_payload env
        (bitsToBytes
          (if il then
            applyPerm
              (env.rngPerm
                (seed_from env key
                  (flip_blocks (bytesToBits (robust_frame env payload)) maskBlocks).length 3)
                (flip_blocks (bytesToBits (robust_frame env payload)) maskBlocks).length)
              (flip_blocks (bytesToBits (robust_frame env payload)) maskBlocks)
          else flip_blocks (bytesToBits (robust_frame env payload)) maskBlocks))
        key 3 il = .ok none) := by
  have hinner_lt : ∀ b ∈ robust_frame env payload, b < 256 :=
    robust_frame_lt env payload hbytes
  set bits := bytesToBits (robust_frame env payload) with hbits
  have hbits_le : ∀ x ∈ bits, x ≤ 1 := bytesToBits_le_one _
  have hbits_len : bits.length = 8 * (12 + payload.length) := by
    rw [hbits, bytesToBits_length, robust_frame_length]
  have hzip_len : (bits.zip maskBlocks).length = bits.length := by
    rw [List.length_zip, hmlen]
    exact min_self _
  set corrupted := flip_blocks bits maskBlocks with hcor
  have hblk3 : ∀ bm ∈ bits.zip maskBlocks,
      ((List.replicate 3 bm.1).zipWith (fun x y => (x + y) % 2) bm.2).length = 3 := by
    intro bm hbm
    rw [List.length_zipWith, List.length_replicate, (hmblk bm.2 (List.of_mem_zip hbm).2).1]
    exact min_self 3
  have hcor_len : corrupted.length = 3 * bits.length := by
    rw [hcor, flip_blocks, flatMap_const_length _ _ 3 hblk3, hzip_len]
  have hcor_le : ∀ x ∈ corrupted, x ≤ 1 := by
    intro x hx
    rw [hcor, flip_blocks, List.mem_flatMap] at hx
    obtain ⟨bm, _, hxbm⟩ := hx
    exact zipWith_mod2_le_one _ _ x hxbm
  have hcor_pos : 0 < corrupted.length := by
    rw [hcor_len, hbits_len]; omega
  have hcor_dvd : 8 ∣ corrupted.length := by
    rw [hcor_len, hbits_len]
    exact ⟨3 * (12 + payload.length), by ring⟩
  have hchunks : chunks 3 corrupted = (bits.zip maskBlocks).map
      (fun bm => (List.replicate 3 bm.1).zipWith (fun x y => (x + y) % 2) bm.2) := by
    rw [hcor, flip_blocks, List.flatMap_def]
    exact chunks_flatten 3 (by omega) _ (by
      intro x hx
      rw [List.mem_map] at hx
      obtain ⟨bm, hbm, hfx⟩ := hx
      rw [← hfx]
      exact hblk3 bm hbm)
  set p := env.rngPerm (seed_from env key corrupted.length 3) corrupted.length with hp
  have hp_perm : p.Perm (List.range corrupted.length) := hperm _ _
  have hp_len : p.length = corrupted.length := by
    rw [hp_perm.length_eq, List.length_range]
  set X := if il then applyPerm p corrupted else corrupted with hX
  have hX_len : X.length = corrupted.length := by
    rw [hX]; split
    · rw [applyPerm_length, hp_len]
    · rfl
  have hX_le : ∀ x ∈ X, x ≤ 1 := by
    rw [hX]; split
    · exact applyPerm_le_one p corrupted hcor_le
    · exact hcor_le
  have hX_dvd : 8 ∣ X.length := by rw [hX_len]; exact hcor_dvd
  -- the shared prefix of the decode computation
  have hdecode : ∀ innerPost : Option (List ℕ),
      (bitsToBytes ((chunks 3 corrupted).map
        (fun blk => if 3 / 2 + 1 ≤ blk.sum then 1 else 0))) = bitsToBytes corrupted →
        True := fun _ _ => trivial
  clear hdecode
  have hbody : decode_payload env (bitsToBytes X) key 3 il =
      .ok ((some (bitsToBytes ((chunks 3 corrupted).map
        (fun blk => if 3 / 2 + 1 ≤ blk.sum then 1 else 0)))).bind (unframe_robust env)) := by
    unfold decode_payload
    rw [if_neg (by omega), if_neg (by omega)]
    simp only []
    rw [bytesToBits_bitsToBytes X hX_dvd hX_le]
    have hrestore :
        (if il ∧ 0 < X.length then
          applyPerm (invPerm (env.rngPerm (seed_from env key X.length 3) X.length)) X
         else X) = corrupted := by
      by_cases hil : il = true
      · rw [if_pos ⟨hil, by rw [hX_len]; exact hcor_pos⟩]
        have hXeq : X = applyPerm p corrupted := by rw [hX, if_pos hil]
        rw [hX_len, hXeq, ← hp]
        exact applyPerm_invPerm p corrupted corrupted.length hp_perm rfl
      · have hil' : il = false := by
          cases il
          · rfl
          · exact absurd rfl hil
        rw [if_neg (by rw [hil']; simp), hX, hil', if_neg (by simp)]
    rw [hrestore]
    rw [if_neg (by omega), if_neg (by
      rw [hcor_len, hbits_len]
      simp [Nat.mul_mod_right])]
  constructor
  · -- at most one flip per block: majority still recovers every bit
    intro hsum1
    rw [hbody, hchunks, List.map_map]
    have hmaj : ((bits.zip maskBlocks).map
        ((fun blk => if 3 / 2 + 1 ≤ List.sum blk then 1 else 0) ∘
          (fun bm => (List.replicate 3 bm.1).zipWith (fun x y => (x + y) % 2) bm.2))) =
        bits := by
      have hcg : ∀ bm ∈ bits.zip maskBlocks,
          ((fun blk => if 3 / 2 + 1 ≤ List.sum blk then 1 else 0) ∘
            (fun bm => (List.replicate 3 bm.1).zipWith (fun x y => (x + y) % 2) bm.2)) bm =
          Prod.fst bm := by
        intro bm hbm
        have h1 := (List.of_mem_zip hbm).1
        have h2 := (List.of_mem_zip hbm).2
        simp only [Function.comp_apply]
        exact majority_flip_le_one bm.1 bm.2 (hbits_le _ h1) (hmblk _ h2).1
          (hmblk _ h2).2 (hsum1 _ h2)
      rw [List.map_congr_left hcg]
      exact List.map_fst_zip bits maskBlocks (by omega)
    rw [hmaj, hbits, bitsToBytes_bytesToBits _ hinner_lt]
    simp only [Option.some_bind]
    rw [unframe_robust_frame env payload hlen]
  · -- exactly two flips per block: every vote inverts, the magic check fails
    intro hsum2
    rw [hbody, hchunks, List.map_map]
    have hmaj : ((bits.zip maskBlocks).map
        ((fun blk => if 3 / 2 + 1 ≤ List.sum blk then 1 else 0) ∘
          (fun bm => (List.replicate 3 bm.1).zipWith (fun x y => (x + y) % 2) bm.2))) =
        bits.map (fun b => 1 - b) := by
      have hcg : ∀ bm ∈ bits.zip maskBlocks,
          ((fun blk => if 3 / 2 + 1 ≤ List.sum blk then 1 else 0) ∘
            (fun bm => (List.replicate 3 bm.1).zipWith (fun x y => (x + y) % 2) bm.2)) bm =
          ((fun b => 1 - b) ∘ Prod.fst) bm := by
        intro bm hbm
        have h1 := (List.of_mem_zip hbm).1
        have h2 := (List.of_mem_zip hbm).2
        simp only [Function.comp_apply]
        exact majority_flip_two bm.1 bm.2 (hbits_le _ h1) (hmblk _ h2).1
          (hmblk _ h2).2 (hsum2 _ h2)
      rw [List.map_congr_left hcg, ← List.map_map]
      rw [List.map_fst_zip bits maskBlocks (by omega)]
    rw [hmaj, hbits]
    rw [← bytesToBits_complement _ hinner_lt]
    rw [bitsToBytes_bytesToBits _ (by
      intro b hb
      rw [List.mem_map] at hb
      obtain ⟨c, _, hc⟩ := hb
      omega)]
    simp only [Option.some_bind]
    -- the complemented frame starts with the complement of "RBST"
    have htake4 : (robust_frame env payload).take 4 = RBST_MAGIC := by
      rw [robust_frame, List.append_assoc, List.append_assoc,
        List.take_left' (show RBST_MAGIC.length = 4 from rfl)]
    unfold unframe_robust
    rw [if_neg (by
      rw [List.length_map, robust_frame_length]; omega)]
    rw [if_pos (by
      rw [← List.map_take, htake4]
      decide)]

theorem robust_codec_tolerance_witness :
    (decode_payload envW
      (bitsToBytes (flip_blocks (bytesToBits (robust_frame envW [7]))
        (List.replicate 104 [1, 0, 0]))) [1] 3 false = .ok (some [7])) ∧
    (decode_payload envW
      (bitsToBytes (flip_blocks (bytesToBits (robust_frame envW [7]))
        (List.replicate 104 [1, 1, 0]))) [1] 3 false = .ok none) :=
  ⟨(robust_codec_tolerance envW [7] [1] false (List.replicate 104 [1, 0, 0])
      (fun s n => List.Perm.refl _) (by decide) (by decide) (by decide) (by decide)).1
    (by decide),
   (robust_codec_tolerance envW [7] [1] false (List.replicate 104 [1, 1, 0])
      (fun s n => List.Perm.refl _) (by decide) (by decide) (by decide) (by decide)).2
    (by decide)⟩

/-! ## Round trip of the embedding engine -/

/-- Reading the LSBs back at a prefix of the (distinct, in-range) written
positions returns the prefix of the written bits. -/
theorem readBits_writeBits_take (orig : List ℤ) (ps bs : List ℕ) (m : ℕ)
    (hnd : ps.Nodup) (hlen : ps.length = bs.length) (hlt : ∀ p ∈ ps, p < orig.length)
    (hble : ∀ b ∈ bs, b ≤ 1) (hm : m ≤ ps.length) :
    readBits (writeBits orig orig (ps.zip bs)) (ps.take m) = bs.take m := by
  have hmap_fst : (ps.zip bs).map Prod.fst = ps := List.map_fst_zip ps bs (by omega)
  apply List.ext_getElem
  · unfold readBits
    simp only [List.length_map, List.length_take]
    omega
  · intro j h1 h2
    unfold readBits
    simp only [List.getElem_map, List.getElem_take]
    unfold readBits at h1
    simp only [List.length_map, List.length_take] at h1
    have hjp : j < ps.length := by omega
    have hjb : j < bs.length := by omega
    have hjz : j < (ps.zip bs).length := by
      rw [List.length_zip]; omega
    have hpair : (ps[j], bs[j]) ∈ ps.zip bs := by
      have h := List.getElem_mem hjz
      rwa [List.getElem_zip] at h
    have hval := writeBits_getD_mem orig (ps.zip bs) orig rfl
      (by rw [hmap_fst]; exact hnd)
      (by rw [hmap_fst]; exact hlt) _ hpair
    simp only at hval
    rw [hval]
    exact lsb_setLsb _ _ (hble _ (List.getElem_mem hjb))

/-- C1 §round-trip (amended): embedding succeeds and, **provided the order
recomputed from the mutated stego buffer coincides with the order computed
from the cover** (the extraction side recomputes it from the stego buffer,
whose per-frame energies may differ), extraction with identical key and
parameters returns exactly the original plaintext — with and without
encryption, with and without the robust layer.  The cipher adapter's
round-trip contract and the byte/length side conditions of the 4-byte length
fields are hypotheses on the abstract primitives. -/
theorem adaptive_roundtrip (env : Env) (data : List ℤ) (pt key : List ℕ)
    (frameSize hopSize : ℕ) (pct : ℚ) (encrypt : Bool) (r : ℕ) (il : Bool)
    (order payload : List ℕ)
    (hr : r % 2 = 1)
    (hperm : ∀ s n, (env.rngPerm s n).Perm (List.range n))
    (hb0 : ∀ b ∈ (if encrypt then env.aesEnc key pt else pt), b < 256)
    (hlen0 : (if encrypt then env.aesEnc key pt else pt).length < 2 ^ 32)
    (hdec : encrypt = true → env.aesDec key (env.aesEnc key pt) = some pt)
    (hproc : processed_payload env pt key encrypt r il = .ok payload)
    (hbP : ∀ b ∈ payload, b < 256) (hlenP : payload.length < 2 ^ 32)
    (horder : generate_order_indices env data key frameSize hopSize pct = some order)
    (hfit : 8 * (8 + payload.length) ≤ order.length) :
    ∃ stego,
      embed_adaptive_keyed env data pt key frameSize hopSize pct encrypt r il =
        .ok stego ∧
      (generate_order_indices env stego key frameSize hopSize pct = some order →
        extract_adaptive_keyed env stego key frameSize hopSize pct encrypt r il =
          .ok pt) := by
  set msg := PREAMBLE ++ natToBE 4 payload.length ++ payload with hmsg
  have hmsg_lt : ∀ b ∈ msg, b < 256 := by
    intro b hb
    rw [hmsg] at hb
    simp only [List.append_assoc, List.mem_append] at hb
    rcases hb with hb | hb | hb
    · simp only [PREAMBLE, List.mem_cons, List.not_mem_nil, or_false] at hb
      rcases hb with h | h | h | h <;> omega
    · exact natToBE_lt _ _ _ hb
    · exact hbP b hb
  set bits := bytesToBits msg with hbits
  have hbits_le : ∀ x ∈ bits, x ≤ 1 := bytesToBits_le_one msg
  have hbits_len : bits.length = 8 * (8 + payload.length) := msg_bits_length payload
  have hordperm := generate_order_perm_helper env data key frameSize hopSize pct order horder
  have hord_lt : ∀ p ∈ order, p < data.length := fun p hp =>
    List.mem_range.mp (hordperm.mem_iff.mp hp)
  have hord_nodup : order.Nodup := hordperm.symm.nodup (List.nodup_range _)
  set ps := order.take bits.length with hps
  have hps_nodup : ps.Nodup := hord_nodup.sublist (List.take_sublist _ _)
  have hps_lt : ∀ p ∈ ps, p < data.length := fun p hp =>
    hord_lt p (List.mem_of_mem_take hp)
  have hps_len : ps.length = bits.length := by
    rw [hps, List.length_take]
    omega
  have hembed : embed_adaptive_keyed env data pt key frameSize hopSize pct encrypt r il
      = .ok (writeBits data data (ps.zip bits)) := by
    unfold embed_adaptive_keyed
    rw [horder, hproc]
    simp only [ok_bind]
    rw [if_neg (by have hmb := msg_bits_length payload; omega)]
  refine ⟨writeBits data data (ps.zip bits), hembed, ?_⟩
  intro hst
  set stego := writeBits data data (ps.zip bits) with hstego
  have hread : ∀ m, m ≤ bits.length →
      readBits stego (ps.take m) = bits.take m := fun m hm => by
    rw [hstego]
    exact readBits_writeBits_take data ps bits m hps_nodup hps_len hps_lt hbits_le
      (by omega)
  have h64le : (64 : ℕ) ≤ bits.length := by omega
  have htake64 : order.take 64 = ps.take 64 := by
    rw [hps, List.take_take]
    congr 1
    omega
  have hreadHeader : readBits stego (order.take 64) = bits.take 64 := by
    rw [htake64]
    exact hread 64 h64le
  have hheaderBytes : bitsToBytes (bits.take 64) = msg.take 8 := by
    rw [hbits, show (64 : ℕ) = 8 * 8 from rfl, bytesToBits_take]
    exact bitsToBytes_bytesToBits _ (fun b hb => hmsg_lt b (List.mem_of_mem_take hb))
  have hmsg8 : msg.take 8 = PREAMBLE ++ natToBE 4 payload.length := by
    rw [hmsg]
    exact List.take_left' (by simp [PREAMBLE])
  have hpre : (msg.take 8).take 4 = PREAMBLE := by
    rw [hmsg8]
    exact List.take_left' rfl
  have hlenparse : bytesBEToNat (((msg.take 8).drop 4).take 4) = payload.length := by
    rw [hmsg8, List.drop_left' (show PREAMBLE.length = 4 from rfl)]
    rw [List.take_of_length_le (le_of_eq (natToBE_length 4 _))]
    rw [bytesBEToNat_natToBE]
    exact Nat.mod_eq_of_lt (by norm_num at hlenP ⊢; omega)
  have htb : 64 + payload.length * 8 = bits.length := by
    rw [hbits_len]; ring
  have htakeTotal : order.take (64 + payload.length * 8) = ps := by
    rw [htb, hps]
  have hreadAll : readBits stego ps = bits := by
    have := hread bits.length (le_refl _)
    rwa [List.take_of_length_le (le_of_eq hps_len), List.take_length] at this
  have hbytesAll : bitsToBytes bits = msg := by
    rw [hbits]
    exact bitsToBytes_bytesToBits msg hmsg_lt
  have hdrop8 : msg.drop 8 = payload := by
    rw [hmsg]
    exact List.drop_left' (by simp [PREAMBLE])
  have hextract_eq : extract_adaptive_keyed env stego key frameSize hopSize pct
      encrypt r il = extract_after_order env stego key encrypt r il order := by
    unfold extract_adaptive_keyed
    rw [hst]
  rw [hextract_eq]
  simp only [extract_after_order]
  rw [hreadHeader, hheaderBytes]
  rw [if_neg (fun hcon => hcon hpre)]
  rw [hlenparse, htakeTotal, hreadAll, hbytesAll, hdrop8, List.take_length]
  rw [if_neg (by omega)]
  -- the robust / decrypt tail
  by_cases hra : robust_applied r il = true
  · have hproc' : encode_payload env (if encrypt then env.aesEnc key pt else pt)
        key r il = .ok payload := by
      unfold processed_payload at hproc
      rwa [if_pos hra] at hproc
    obtain ⟨e, henc, hdece⟩ := decode_encode_payload env
      (if encrypt then env.aesEnc key pt else pt) key r il hr hperm hb0 hlen0
    have hpe : payload = e := by
      rw [henc] at hproc'
      exact (Except.ok.inj hproc').symm
    rw [if_pos hra, hpe, hdece]
    cases hEnc : encrypt with
    | false => rfl
    | true =>
      show (match env.aesDec key (env.aesEnc key pt) with
        | none => ExtractOutcome.noResult
        | some p => ExtractOutcome.ok p) = ExtractOutcome.ok pt
      rw [hdec hEnc]
  · have hproc' : payload = (if encrypt then env.aesEnc key pt else pt) := by
      unfold processed_payload at hproc
      rw [if_neg hra] at hproc
      exact (Except.ok.inj hproc).symm
    rw [if_neg hra]
    cases hEnc : encrypt with
    | false =>
      have hpp : payload = pt := by
        rw [hEnc] at hproc'
        simpa using hproc'
      rw [hpp]
      rfl
    | true =>
      have hpp : payload = env.aesEnc key pt := by
        rw [hEnc] at hproc'
        simpa using hproc'
      rw [hpp]
      show (match env.aesDec key (env.aesEnc key pt) with
        | none => ExtractOutcome.noResult
        | some p => ExtractOutcome.ok p) = ExtractOutcome.ok pt
      rw [hdec hEnc]

set_option maxRecDepth 8000 in
/-- C1 §counterexample: embedding the empty payload (framed bit length 64 =
order length) into the silent 64-sample cover succeeds, but extraction with
the identical key and parameters does not return the payload: the stego
buffer's per-frame energies differ from the cover's, the recomputed order
differs, and the preamble check fails. -/
theorem adaptive_roundtrip_counterexample :
    embed_adaptive_keyed cexEnv cover64 [] [9] 32 32 0 false 1 true = .ok stego64 ∧
    extract_adaptive_keyed cexEnv stego64 [9] 32 32 0 false 1 true ≠
      ExtractOutcome.ok [] := by
  with_unfolding_all decide

set_option maxRecDepth 8000 in
theorem adaptive_roundtrip_witness :
    ∃ stego, embed_adaptive_keyed envW (List.replicate 72 0) [72] [9] 72 72 0 false 1 true =
        .ok stego ∧
      (generate_order_indices envW stego [9] 72 72 0 = some (List.range 72) →
        extract_adaptive_keyed envW stego [9] 72 72 0 false 1 true = .ok [72]) :=
  adaptive_roundtrip envW (List.replicate 72 0) [72] [9] 72 72 0 false 1 true
    (List.range 72) [72] (by decide) (fun s n => List.Perm.refl _) (by decide) (by decide)
    (fun h => absurd h (by decide)) (by rfl) (by decide) (by decide)
    (by with_unfolding_all decide) (by decide)

/-! ## Mutation shape of the embedding -/

theorem setLsb_div_two (x : ℤ) (b : ℕ) (hb : b ≤ 1) : setLsb x b / 2 = x / 2 := by
  unfold setLsb
  omega

theorem setLsb_natAbs_sub (x : ℤ) (b : ℕ) (hb : b ≤ 1) :
    (setLsb x b - x).natAbs ≤ 1 := by
  unfold setLsb
  omega

/-- C10 §LSB-only mutation: the embedded buffer is a copy of the cover of the
same length in which only least-significant bits changed — every sample keeps
its upper 15 bits (`stego[i] >> 1 = cover[i] >> 1`, so it moves by at most 1),
and every sample whose index is not among the first `bits.length` entries of
the order is completely unchanged. -/
theorem embed_mutation_shape (env : Env) (data : List ℤ) (pt key : List ℕ)
    (frameSize hopSize : ℕ) (pct : ℚ) (encrypt : Bool) (r : ℕ) (il : Bool)
    (order payload : List ℕ) (stego : List ℤ)
    (horder : generate_order_indices env data key frameSize hopSize pct = some order)
    (hproc : processed_payload env pt key encrypt r il = .ok payload)
    (hembed : embed_adaptive_keyed env data pt key frameSize hopSize pct encrypt r il =
      .ok stego) :
    stego.length = data.length ∧
    (∀ i, stego.getD i 0 / 2 = data.getD i 0 / 2 ∧
      (stego.getD i 0 - data.getD i 0).natAbs ≤ 1) ∧
    (∀ i, i ∉ order.take (8 * (8 + payload.length)) → stego.getD i 0 = data.getD i 0) := by
  set msg := PREAMBLE ++ natToBE 4 payload.length ++ payload with hmsg
  set bits := bytesToBits msg with hbits
  have hbits_le : ∀ x ∈ bits, x ≤ 1 := bytesToBits_le_one msg
  have hbits_len : bits.length = 8 * (8 + payload.length) := msg_bits_length payload
  set ps := order.take bits.length with hps
  have hstego : stego = writeBits data data (ps.zip bits) := by
    unfold embed_adaptive_keyed at hembed
    rw [horder, hproc] at hembed
    simp only [ok_bind] at hembed
    split at hembed
    · exact Except.noConfusion hembed
    · exact (Except.ok.inj hembed).symm
  have hfst : (ps.zip bits).map Prod.fst = ps :=
    List.map_fst_zip ps bits (by rw [hps, List.length_take]; omega)
  refine ⟨by rw [hstego, writeBits_length], ?_, ?_⟩
  · intro i
    rcases writeBits_getD_cases data (ps.zip bits) data i with hsame | ⟨pb, hpb, hi, hval⟩
    · rw [hstego, hsame]
      omega
    · have hb1 : pb.2 ≤ 1 := hbits_le pb.2 (List.of_mem_zip hpb).2
      rw [hstego, hval]
      exact ⟨setLsb_div_two _ _ hb1, setLsb_natAbs_sub _ _ hb1⟩
  · intro i hni
    rw [hstego]
    apply writeBits_getD_not_mem
    rw [hfst, hps, hbits_len]
    exact hni

set_option maxRecDepth 8000 in
theorem embed_mutation_shape_witness :
    stegoW72.length = (List.replicate 72 (0:ℤ)).length ∧
    (∀ i, stegoW72.getD i 0 / 2 = (List.replicate 72 (0:ℤ)).getD i 0 / 2 ∧
      (stegoW72.getD i 0 - (List.replicate 72 (0:ℤ)).getD i 0).natAbs ≤ 1) ∧
    (∀ i, i ∉ (List.range 72).take (8 * (8 + ([72] : List ℕ).length)) →
      stegoW72.getD i 0 = (List.replicate 72 (0:ℤ)).getD i 0) :=
  embed_mutation_shape envW (List.replicate 72 0) [72] [9] 72 72 0 false 1 true
    (List.range 72) [72] stegoW72 (by with_unfolding_all decide) (by rfl)
    (by with_unfolding_all decide)

/-! ## Extraction never raises for valid parameters -/

/-! ## Order stability in a single-frame configuration

With `frame_size, hop_size ≥ n` the whole buffer is one frame, whose
normalized score is `1` whatever its content (min-max normalization of a
singleton saturates), so the sort key — and hence the order — does not depend
on the sample values at all.  The order recomputed from a mutated stego
buffer of the same length therefore equals the cover's, for every
environment. -/

theorem filter_range_mod (hs : ℕ) : ∀ n, 0 < n → n ≤ hs →
    (List.range n).filter (fun s => s % hs = 0) = [0] := by
  intro n
  induction n with
  | zero => intro h _; omega
  | succ m ih =>
    intro _ hle
    rw [List.range_succ, List.filter_append]
    rcases Nat.eq_zero_or_pos m with hm | hm
    · subst hm
      simp
    · rw [ih hm (by omega)]
      have hmod : m % hs = m := Nat.mod_eq_of_lt (by omega)
      have hne : ¬ m % hs = 0 := by omega
      simp [hne]

theorem frame_edges_single (n fs hs : ℕ) (hn : 0 < n) (hfs : n ≤ fs) (hhs : n ≤ hs) :
    frame_edges n fs hs = [(0, n)] := by
  unfold frame_edges
  rw [if_neg (by omega), filter_range_mod hs n hn hhs]
  simp [min_eq_right hfs]

theorem normalize_scores_single (x : ℚ) : normalize_scores [x] = [1] := by
  unfold normalize_scores
  rw [if_neg (by simp)]
  simp only [List.headD_cons, List.foldl_cons, List.foldl_nil, min_self, max_self]
  rw [if_pos (by rw [sub_self]; norm_num)]
  rfl

theorem order_scores_single (env : Env) (data : List ℤ) (fs hs : ℕ) (pct : ℚ)
    (hn : 0 < data.length) (hfs : data.length ≤ fs) (hhs : data.length ≤ hs) :
    order_scores env data fs hs pct =
      some (if 0 < pct then
              [if (1 : ℚ) < env.percentileFn [1] pct then 1 * (1 / 10) else 1]
            else [1]) := by
  unfold order_scores
  simp only []
  rw [frame_edges_single data.length fs hs hn hfs hhs]
  simp only [List.map_cons, List.map_nil, Nat.sub_zero, List.drop_zero, List.take_length]
  rw [normalize_scores_single]
  by_cases hpct : 0 < pct
  · simp only [if_pos hpct, List.map_cons, List.map_nil]
    rw [if_neg (by simp)]
  · simp only [if_neg hpct]

theorem generate_order_single_congr (env : Env) (data stego : List ℤ) (key : List ℕ)
    (fs hs : ℕ) (pct : ℚ) (hlen : stego.length = data.length) (hn : 0 < data.length)
    (hfs : data.length ≤ fs) (hhs : data.length ≤ hs) :
    generate_order_indices env stego key fs hs pct =
      generate_order_indices env data key fs hs pct := by
  have hk : ord_key_fn env stego key fs hs = ord_key_fn env data key fs hs := by
    funext scores i
    unfold ord_key_fn
    rw [hlen]
  rw [generate_order_eq_sort env stego key fs hs pct _
        (order_scores_single env stego fs hs pct (by omega) (by omega) (by omega)),
      generate_order_eq_sort env data key fs hs pct _
        (order_scores_single env data fs hs pct hn hfs hhs),
      hk, hlen]

theorem decode_payload_ok (env : Env) (encoded key : List ℕ) (r : ℕ) (il : Bool)
    (hr : r % 2 = 1) : ∃ o, decode_payload env encoded key r il = .ok o := by
  unfold decode_payload
  rw [if_neg (by omega), if_neg (by omega)]
  exact ⟨_, rfl⟩

/-- C8 (amended): with a valid (odd `≥ 1`) `robust_repeat` and a buffer on
which order generation succeeds, every failure on the extraction path —
preamble mismatch, declared length exceeding capacity, robust-decode failure,
decryption failure — returns the explicit no-result value; no exception
escapes.  (An even or zero `robust_repeat` is passed through to
`decode_payload`, whose `ValueError` does escape — see the counterexample —
and an empty buffer with positive percentile raises in order generation.) -/
theorem extract_no_raise (env : Env) (data : List ℤ) (key : List ℕ)
    (frameSize hopSize : ℕ) (pct : ℚ) (decrypt : Bool) (r : ℕ) (il : Bool)
    (hr : r % 2 = 1)
    (hord : (generate_order_indices env data key frameSize hopSize pct).isSome) :
    extract_adaptive_keyed env data key frameSize hopSize pct decrypt r il ≠
      ExtractOutcome.raised := by
  unfold extract_adaptive_keyed
  cases hg : generate_order_indices env data key frameSize hopSize pct with
  | none => rw [hg] at hord; exact absurd hord (by simp)
  | some order =>
    intro hcon
    simp only [extract_after_order] at hcon
    have hstep : ∀ p : List ℕ, ∃ o,
        (if robust_applied r il then decode_payload env p key r il
         else .ok (some p)) = Except.ok o := by
      intro p
      by_cases hra : robust_applied r il = true
      · rw [if_pos hra]
        exact decode_payload_ok env p key r il hr
      · rw [if_neg hra]
        exact ⟨some p, rfl⟩
    have htail : ∀ p2 : List ℕ,
        (if decrypt then
          (match env.aesDec key p2 with
           | none => ExtractOutcome.noResult
           | some q => ExtractOutcome.ok q)
         else ExtractOutcome.ok p2) ≠ ExtractOutcome.raised := by
      intro p2
      by_cases hd : decrypt = true
      · rw [if_pos hd]
        cases env.aesDec key p2 <;> exact fun hc => ExtractOutcome.noConfusion hc
      · rw [if_neg hd]
        exact fun hc => ExtractOutcome.noConfusion hc
    by_cases h1 : (bitsToBytes (readBits data (order.take 64))).take 4 ≠ PREAMBLE
    · rw [if_pos h1] at hcon
      exact ExtractOutcome.noConfusion hcon
    · rw [if_neg h1] at hcon
      by_cases h2 : order.length <
          64 + bytesBEToNat (((bitsToBytes (readBits data (order.take 64))).drop 4).take 4) * 8
      · rw [if_pos h2] at hcon
        exact ExtractOutcome.noConfusion hcon
      · rw [if_neg h2] at hcon
        obtain ⟨o, ho⟩ := hstep ((bitsToBytes (readBits data (order.take (64 +
          bytesBEToNat (((bitsToBytes (readBits data (order.take 64))).drop 4).take 4) *
            8)))).drop 8 |>.take (bytesBEToNat
              (((bitsToBytes (readBits data (order.take 64))).drop 4).take 4)))
        rw [ho] at hcon
        cases o with
        | none => exact ExtractOutcome.noConfusion hcon
        | some p2 => exact htail p2 hcon

set_option maxRecDepth 8000 in
/-- C8 §counterexample: the `ValueError` ("repeat must be odd") raised by
`decode_payload` on `robust_repeat = 2` escapes `extract_adaptive_keyed`,
which only wraps the AES decryption in `try/except`.  First conjunct: for
**every** environment — in particular the true external primitives — a
genuine embed-then-extract pair reaches it.  In a single-frame configuration
(`frame_size, hop_size ≥ n`), the lone frame's score normalizes to `1` on any
buffer, so the order recomputed from the stego buffer provably equals the
cover's; embedding any fitting payload with the default robust settings
(`robust_repeat = 1`, `robust_interleave = true`) then succeeds, the
extraction side finds the preamble and the payload, and extracting with
`robust_repeat = 2` raises instead of returning the no-result value.  Second
conjunct: one concrete such pair, evaluated. -/
theorem extract_invalid_repeat_counterexample :
    (∀ (env : Env) (data : List ℤ) (pt key : List ℕ) (frameSize hopSize : ℕ)
        (pct : ℚ) (il : Bool),
      data ≠ [] → data.length ≤ frameSize → data.length ≤ hopSize →
      (∀ b ∈ pt, b < 256) → pt.length < 2 ^ 32 →
      8 * (8 + pt.length) ≤ data.length →
      ∃ stego,
        embed_adaptive_keyed env data pt key frameSize hopSize pct false 1 true =
          .ok stego ∧
        extract_adaptive_keyed env stego key frameSize hopSize pct false 2 il =
          ExtractOutcome.raised) ∧
    embed_adaptive_keyed envC8 (List.replicate 72 0) [72] [9] 72 72 20 false 1 true =
      .ok stegoC8 ∧
    extract_adaptive_keyed envC8 stegoC8 [9] 72 72 20 false 2 true =
      ExtractOutcome.raised := by
  constructor
  · intro env data pt key frameSize hopSize pct il hne hfs hhs hbP hlenP hcap
    have hn : 0 < data.length := List.length_pos.mpr hne
    obtain ⟨order, horder⟩ : ∃ o,
        generate_order_indices env data key frameSize hopSize pct = some o :=
      ⟨_, generate_order_eq_sort env data key frameSize hopSize pct _
        (order_scores_single env data frameSize hopSize pct hn hfs hhs)⟩
    have hordperm := generate_order_perm_helper env data key frameSize hopSize pct order horder
    have hordlen : order.length = data.length := by
      have := hordperm.length_eq
      simpa using this
    have hfit : 8 * (8 + pt.length) ≤ order.length := by omega
    set msg := PREAMBLE ++ natToBE 4 pt.length ++ pt with hmsg
    have hmsg_lt : ∀ b ∈ msg, b < 256 := by
      intro b hb
      rw [hmsg] at hb
      simp only [List.append_assoc, List.mem_append] at hb
      rcases hb with hb | hb | hb
      · simp only [PREAMBLE, List.mem_cons, List.not_mem_nil, or_false] at hb
        rcases hb with h | h | h | h <;> omega
      · exact natToBE_lt _ _ _ hb
      · exact hbP b hb
    set bits := bytesToBits msg with hbits
    have hbits_le : ∀ x ∈ bits, x ≤ 1 := bytesToBits_le_one msg
    have hbits_len : bits.length = 8 * (8 + pt.length) := msg_bits_length pt
    have hord_lt : ∀ p ∈ order, p < data.length := fun p hp =>
      List.mem_range.mp (hordperm.mem_iff.mp hp)
    have hord_nodup : order.Nodup := hordperm.symm.nodup (List.nodup_range _)
    set ps := order.take bits.length with hps
    have hps_nodup : ps.Nodup := hord_nodup.sublist (List.take_sublist _ _)
    have hps_lt : ∀ p ∈ ps, p < data.length := fun p hp =>
      hord_lt p (List.mem_of_mem_take hp)
    have hps_len : ps.length = bits.length := by
      rw [hps, List.length_take]
      omega
    have hproc : processed_payload env pt key false 1 true = .ok pt := rfl
    have hembed : embed_adaptive_keyed env data pt key frameSize hopSize pct false 1 true
        = .ok (writeBits data data (ps.zip bits)) := by
      unfold embed_adaptive_keyed
      rw [horder, hproc]
      simp only [ok_bind]
      rw [if_neg (by have hmb := msg_bits_length pt; omega)]
    refine ⟨writeBits data data (ps.zip bits), hembed, ?_⟩
    set stego := writeBits data data (ps.zip bits) with hstego
    have hstlen : stego.length = data.length := by
      rw [hstego]
      exact writeBits_length data _ data
    have hst : generate_order_indices env stego key frameSize hopSize pct = some order := by
      rw [generate_order_single_congr env data stego key frameSize hopSize pct hstlen hn hfs hhs]
      exact horder
    have hread : ∀ m, m ≤ bits.length →
        readBits stego (ps.take m) = bits.take m := fun m hm => by
      rw [hstego]
      exact readBits_writeBits_take data ps bits m hps_nodup hps_len hps_lt hbits_le
        (by omega)
    have h64le : (64 : ℕ) ≤ bits.length := by omega
    have htake64 : order.take 64 = ps.take 64 := by
      rw [hps, List.take_take]
      congr 1
      omega
    have hreadHeader : readBits stego (order.take 64) = bits.take 64 := by
      rw [htake64]
      exact hread 64 h64le
    have hheaderBytes : bitsToBytes (bits.take 64) = msg.take 8 := by
      rw [hbits, show (64 : ℕ) = 8 * 8 from rfl, bytesToBits_take]
      exact bitsToBytes_bytesToBits _ (fun b hb => hmsg_lt b (List.mem_of_mem_take hb))
    have hmsg8 : msg.take 8 = PREAMBLE ++ natToBE 4 pt.length := by
      rw [hmsg]
      exact List.take_left' (by simp [PREAMBLE])
    have hpre : (msg.take 8).take 4 = PREAMBLE := by
      rw [hmsg8]
      exact List.take_left' rfl
    have hlenparse : bytesBEToNat (((msg.take 8).drop 4).take 4) = pt.length := by
      rw [hmsg8, List.drop_left' (show PREAMBLE.length = 4 from rfl)]
      rw [List.take_of_length_le (le_of_eq (natToBE_length 4 _))]
      rw [bytesBEToNat_natToBE]
      exact Nat.mod_eq_of_lt (by norm_num at hlenP ⊢; omega)
    have htb : 64 + pt.length * 8 = bits.length := by
      rw [hbits_len]; ring
    have htakeTotal : order.take (64 + pt.length * 8) = ps := by
      rw [htb, hps]
    have hreadAll : readBits stego ps = bits := by
      have := hread bits.length (le_refl _)
      rwa [List.take_of_length_le (le_of_eq hps_len), List.take_length] at this
    have hbytesAll : bitsToBytes bits = msg := by
      rw [hbits]
      exact bitsToBytes_bytesToBits msg hmsg_lt
    have hdrop8 : msg.drop 8 = pt := by
      rw [hmsg]
      exact List.drop_left' (by simp [PREAMBLE])
    have hextract_eq : extract_adaptive_keyed env stego key frameSize hopSize pct
        false 2 il = extract_after_order env stego key false 2 il order := by
      unfold extract_adaptive_keyed
      rw [hst]
    rw [hextract_eq]
    simp only [extract_after_order]
    rw [hreadHeader, hheaderBytes]
    rw [if_neg (fun hcon => hcon hpre)]
    rw [hlenparse, htakeTotal, hreadAll, hbytesAll, hdrop8, List.take_length]
    rw [if_neg (by omega)]
    rw [if_pos (show robust_applied 2 il = true from rfl)]
    rfl
  · constructor
    · with_unfolding_all decide
    · with_unfolding_all decide

set_option maxRecDepth 8000 in
theorem extract_no_raise_witness :
    extract_adaptive_keyed envW preambleData [9] 64 64 0 false 3 true ≠
      ExtractOutcome.raised :=
  extract_no_raise envW preambleData [9] 64 64 0 false 3 true (by decide)
    (by with_unfolding_all decide)

theorem generate_order_perm_witness :
    (generate_order_indices envW [5, 6, 7, 8] [9] 4 2 0 = some [0, 1, 2, 3]) ∧
    ([0, 1, 2, 3] : List ℕ).Perm (List.range ([5, 6, 7, 8] : List ℤ).length) :=
  ⟨by with_unfolding_all decide,
   generate_order_perm envW [5, 6, 7, 8] [9] 4 2 0 [0, 1, 2, 3]
     (by with_unfolding_all decide)⟩

theorem generate_order_no_error_witness :
    (([5] : List ℤ) ≠ [] → (generate_order_indices envW [5] [9] 4 2 20).isSome) ∧
    generate_order_indices envW [] [9] 4 2 20 = (if (0 : ℚ) < 20 then none else some []) :=
  generate_order_no_error envW [5] [9] 4 2 20 (by decide)

theorem generate_order_stable_sort_witness :
    (([0, 1, 2, 3] : List ℕ).Pairwise (fun a b =>
        ord_key_fn envW [5, 6, 7, 8] [9] 4 2 [1, 1] a <
          ord_key_fn envW [5, 6, 7, 8] [9] 4 2 [1, 1] b ∨
        (ord_key_fn envW [5, 6, 7, 8] [9] 4 2 [1, 1] a =
          ord_key_fn envW [5, 6, 7, 8] [9] 4 2 [1, 1] b ∧ a < b)) ∧
      ([0, 1, 2, 3] : List ℕ).Perm (List.range ([5, 6, 7, 8] : List ℤ).length)) ∧
    (∀ i : ℕ, ord_key_fn envW [5, 6, 7, 8] [9] 4 2 [1, 1] i =
      envW.rng (bytesBEToNat ((envW.sha256 [9]).take 8)) i /
        ((broadcast_scores ([5, 6, 7, 8] : List ℤ).length
          (frame_edges ([5, 6, 7, 8] : List ℤ).length 4 2) [1, 1]).getD i 0
          + 1 / 1000000)) :=
  generate_order_stable_sort envW [5, 6, 7, 8] [9] 4 2 0 [1, 1] [0, 1, 2, 3]
    (by with_unfolding_all decide) (by with_unfolding_all decide)

theorem embed_capacity_boundary_witness :
    ((∃ stego, embed_adaptive_keyed envW [0, 0] [7] [9] 4 2 0 false 1 true = .ok stego) ↔
      8 * (8 + ([7] : List ℕ).length) ≤ ([0, 1] : List ℕ).length) ∧
    (([0, 1] : List ℕ).length < 8 * (8 + ([7] : List ℕ).length) →
      embed_adaptive_keyed envW [0, 0] [7] [9] 4 2 0 false 1 true =
        .error (.capacity (capacity_from_order ([0, 1] : List ℕ).length)
          ([7] : List ℕ).length)) :=
  embed_capacity_boundary envW [0, 0] [7] [9] 4 2 0 false [0, 1] [7]
    (by with_unfolding_all decide) (by rfl)
